import Mathlib

/-!
Verification of the stevoku constraint-satisfaction sudoku engine
(`src/csp.py`, `src/puzzle.py`).

The grid is shallowly embedded as a total assignment of a candidate
domain (`Finset Nat`), an optional committed value, and a FIFO dirty
queue over the `base * base` addresses `Fin b × Fin b`.  A fully
populated `Grid` of the source wires every cell into exactly one row,
column and block set, so a cell is identified with its address and the
source's `dirty.row | dirty.column | dirty.block` peer sets become an
address predicate.  Python's nondeterministic set-iteration orders are
resolved to row-major address order and ascending value order; the
properties checked here are insensitive to that choice.  The `while`
loop of `fixArcConsistency` is embedded with explicit fuel
(`fixGo`); `fixArcConsistency` runs it at the measure
`total domain size + queue length`, which is proved sufficient to
reach the empty-queue fixpoint.
-/

set_option maxRecDepth 100000

namespace Stevoku

/-- Address of a cell in a fully populated `base = b` grid. -/
abbrev Addr (b : Nat) := Fin b × Fin b

/-- Mutable state of a fully populated `Grid`: per-cell domain, per-cell
optional committed value, and the `dirtyCells` FIFO queue.  The `given`
flags and the dynamic `fails` attribute are threaded separately by the
operations that touch them. -/
@[ext]
structure GState (b : Nat) where
  dom : Addr b → Finset Nat
  val : Addr b → Option Nat
  queue : List (Addr b)

/-- A propagation diff: for each cell, the set of values removed from its
domain during one `fixArcConsistency` call (the Python `dict` of lists,
with list order forgotten since `unfixArcConsistency` only takes a set
union). -/
abbrev Diff (b : Nat) := Addr b → Finset Nat

/-- Floor square root (`int(sqrt(n))` of the source), written so that it
reduces structurally: one less than the number of `k ≤ n` with
`k * k ≤ n`. -/
def intSqrt (n : Nat) : Nat :=
  ((List.range (n + 1)).filter (fun k => decide (k * k ≤ n))).length - 1

/-- Block index of an address, as computed by `Grid.blockAt`:
`blockBase*blockRow + blockCol` with `blockBase = int(sqrt(base))`. -/
def blockIdx (b : Nat) (a : Addr b) : Nat :=
  intSqrt b * ((a.1 : Nat) / intSqrt b) + (a.2 : Nat) / intSqrt b

/-- The peer relation: membership of `c` in
`a.row | a.column | a.block - set([a])` for a fully populated grid. -/
def isPeer (b : Nat) (a c : Addr b) : Prop :=
  c ≠ a ∧ (c.1 = a.1 ∨ c.2 = a.2 ∨ blockIdx b c = blockIdx b a)

instance (b : Nat) (a c : Addr b) : Decidable (isPeer b a c) :=
  inferInstanceAs (Decidable (c ≠ a ∧ (c.1 = a.1 ∨ c.2 = a.2 ∨ blockIdx b c = blockIdx b a)))

/-- All addresses in row-major order (the canonical iteration order used
to resolve Python's set-iteration nondeterminism). -/
def allAddrs (b : Nat) : List (Addr b) :=
  (List.finRange b).product (List.finRange b)

/-- The peers of `a`, in canonical order. -/
def peersList (b : Nat) (a : Addr b) : List (Addr b) :=
  (allAddrs b).filter (fun c => decide (isPeer b a c))

/-- Values forcibly removed from a peer domain `S` by a dirty cell whose
domain is `D`: exactly those `v1` with `len(dirty.domain - set([v1])) == 0`. -/
def removedVals (D S : Finset Nat) : Finset Nat :=
  S.filter (fun v1 => D \ {v1} = ∅)

/-- One iteration of the inner `for cell in ...` loop body of
`fixArcConsistency`: remove the forced values from the peer `c`'s domain,
record them in the diff, and enqueue `c` if something was removed and it
is not already pending. -/
def processPeer (D : Finset Nat) (st : GState b) (df : Diff b) (c : Addr b) :
    GState b × Diff b :=
  let R := removedVals D (st.dom c)
  (⟨Function.update st.dom c (st.dom c \ R), st.val,
    if R ≠ ∅ ∧ c ∉ st.queue then st.queue ++ [c] else st.queue⟩,
   Function.update df c (df c ∪ R))

/-- One iteration of the outer `while` loop of `fixArcConsistency`: pop
the head of the dirty queue and process each of its peers. -/
def stepOnce (st : GState b) (df : Diff b) : GState b × Diff b :=
  match st.queue with
  | [] => (st, df)
  | d :: rest =>
      (peersList b d).foldl (fun acc c => processPeer (st.dom d) acc.1 acc.2 c)
        (⟨st.dom, st.val, rest⟩, df)

/-- The `while` loop of `fixArcConsistency`, with explicit fuel. -/
def fixGo (fuel : Nat) (st : GState b) (df : Diff b) : GState b × Diff b :=
  match fuel with
  | 0 => (st, df)
  | fuel' + 1 =>
      if st.queue = [] then (st, df)
      else
        let p := stepOnce st df
        fixGo fuel' p.1 p.2

/-- Termination measure for the dirty-queue loop: total domain size plus
queue length. -/
def mu (st : GState b) : Nat :=
  (∑ a : Addr b, (st.dom a).card) + st.queue.length

/-- `fixArcConsistency(grid)`: run the dirty-queue loop to its fixpoint
(the fuel `mu st` is proved sufficient below) and return the final state
together with the diff of removed values. -/
def fixArcConsistency (st : GState b) : GState b × Diff b :=
  fixGo (mu st) st (fun _ => ∅)

/-- `unfixArcConsistency(diff)`: add every removed value back into the
domain of its cell (set union). -/
def unfixArcConsistency (st : GState b) (df : Diff b) : GState b :=
  ⟨fun a => st.dom a ∪ df a, st.val, st.queue⟩

theorem mem_allAddrs (a : Addr b) : a ∈ allAddrs b := by
  obtain ⟨r, c⟩ := a
  exact List.mem_product.mpr ⟨List.mem_finRange r, List.mem_finRange c⟩

theorem allAddrs_nodup : (allAddrs b).Nodup :=
  (List.nodup_finRange b).product (List.nodup_finRange b)

theorem peersList_nodup (a : Addr b) : (peersList b a).Nodup :=
  (allAddrs_nodup).filter _

theorem mem_peersList {a c : Addr b} : c ∈ peersList b a ↔ isPeer b a c := by
  unfold peersList
  rw [List.mem_filter]
  simp [mem_allAddrs]

theorem removedVals_subset (D S : Finset Nat) : removedVals D S ⊆ S :=
  Finset.filter_subset _ _

/-- Effect of one inner-loop pass over a duplicate-free list of peers:
each listed cell's domain loses exactly the forced values, the diff
records them, the queue gains exactly the shrunk not-yet-pending cells
in order, and values are untouched. -/
theorem foldProcess_spec (D : Finset Nat) :
    ∀ (L : List (Addr b)), L.Nodup → ∀ (st : GState b) (df : Diff b),
      (∀ a, ((L.foldl (fun acc c => processPeer D acc.1 acc.2 c) (st, df)).1.dom a =
        if a ∈ L then st.dom a \ removedVals D (st.dom a) else st.dom a)) ∧
      (∀ a, ((L.foldl (fun acc c => processPeer D acc.1 acc.2 c) (st, df)).2 a =
        if a ∈ L then df a ∪ removedVals D (st.dom a) else df a)) ∧
      ((L.foldl (fun acc c => processPeer D acc.1 acc.2 c) (st, df)).1.queue =
        st.queue ++ L.filter (fun c => decide (removedVals D (st.dom c) ≠ ∅ ∧ c ∉ st.queue))) ∧
      ((L.foldl (fun acc c => processPeer D acc.1 acc.2 c) (st, df)).1.val = st.val) := by
  intro L
  induction L with
  | nil => intro _ st df; refine ⟨fun a => by simp, fun a => by simp, by simp, rfl⟩
  | cons c0 L ih =>
      intro hnd st df
      have hc0 : c0 ∉ L := (List.nodup_cons.mp hnd).1
      have hndL : L.Nodup := (List.nodup_cons.mp hnd).2
      set R0 := removedVals D (st.dom c0) with hR0
      set st1 : GState b := ⟨Function.update st.dom c0 (st.dom c0 \ R0), st.val,
        if R0 ≠ ∅ ∧ c0 ∉ st.queue then st.queue ++ [c0] else st.queue⟩ with hst1
      set df1 : Diff b := Function.update df c0 (df c0 ∪ R0) with hdf1
      have hfold : (c0 :: L).foldl (fun acc c => processPeer D acc.1 acc.2 c) (st, df) =
          L.foldl (fun acc c => processPeer D acc.1 acc.2 c) (st1, df1) := by
        simp only [List.foldl_cons]
        rfl
      obtain ⟨ihdom, ihdf, ihq, ihval⟩ := ih hndL st1 df1
      have hdom1 : ∀ a, a ≠ c0 → st1.dom a = st.dom a := by
        intro a ha; simp only [hst1]; exact Function.update_noteq ha _ _
      have hqmem : ∀ a : Addr b, a ≠ c0 → (a ∈ st1.queue ↔ a ∈ st.queue) := by
        intro a ha
        simp only [hst1]
        by_cases h : R0 ≠ ∅ ∧ c0 ∉ st.queue
        · simp [h, List.mem_append, ha]
        · simp [h]
      refine ⟨?_, ?_, ?_, ?_⟩
      · intro a
        rw [hfold] at *
        rw [ihdom a]
        by_cases haL : a ∈ L
        · have hane : a ≠ c0 := fun h => hc0 (h ▸ haL)
          simp [haL, hane, hdom1 a hane, List.mem_cons]
        · by_cases hac : a = c0
          · subst hac
            simp only [haL, if_neg, List.mem_cons, true_or, if_pos rfl]
            simp [hst1]
          · simp [haL, hac, hdom1 a hac, List.mem_cons]
      · intro a
        rw [hfold] at *
        rw [ihdf a]
        by_cases haL : a ∈ L
        · have hane : a ≠ c0 := fun h => hc0 (h ▸ haL)
          have : df1 a = df a := by simp only [hdf1]; exact Function.update_noteq hane _ _
          simp [haL, hane, this, hdom1 a hane, List.mem_cons]
        · by_cases hac : a = c0
          · subst hac
            simp only [List.mem_cons, true_or, if_pos, haL, if_neg]
            simp [hdf1]
          · have : df1 a = df a := by simp only [hdf1]; exact Function.update_noteq hac _ _
            simp [haL, hac, this, List.mem_cons]
      · rw [hfold] at *
        rw [ihq]
        have hfc : L.filter (fun c => decide (removedVals D (st1.dom c) ≠ ∅ ∧ c ∉ st1.queue)) =
            L.filter (fun c => decide (removedVals D (st.dom c) ≠ ∅ ∧ c ∉ st.queue)) := by
          apply List.filter_congr
          intro x hx
          have hxne : x ≠ c0 := fun h => hc0 (h ▸ hx)
          have hq' := hqmem x hxne
          simp [Function.update_noteq hxne, hq']
        rw [hfc]
        by_cases h : R0 ≠ ∅ ∧ c0 ∉ st.queue
        · have hq1 : st1.queue = st.queue ++ [c0] := by simp [hst1, h]
          have hpc : decide (removedVals D (st.dom c0) ≠ ∅ ∧ c0 ∉ st.queue) = true := by
            simpa using h
          rw [hq1, List.append_assoc]
          simp [List.filter_cons, hpc]
          rw [if_pos (by exact h)]
        · have hq1 : st1.queue = st.queue := by simp [hst1, h]
          have hpc : decide (removedVals D (st.dom c0) ≠ ∅ ∧ c0 ∉ st.queue) = false := by
            simpa using h
          rw [hq1]
          simp [List.filter_cons, hpc]
          rw [if_neg (by exact h)]
      · rw [hfold] at *
        rw [ihval]

/-- Characterisation of one outer-loop iteration on a nonempty queue:
exactly the peers of the popped cell lose their forced values, the diff
records them, and the changed not-yet-pending peers are appended. -/
theorem stepOnce_spec (dm : Addr b → Finset Nat) (vl : Addr b → Option Nat)
    (d : Addr b) (rest : List (Addr b)) (df : Diff b) :
    (∀ a, (stepOnce ⟨dm, vl, d :: rest⟩ df).1.dom a =
      if isPeer b d a then dm a \ removedVals (dm d) (dm a) else dm a) ∧
    (∀ a, (stepOnce ⟨dm, vl, d :: rest⟩ df).2 a =
      if isPeer b d a then df a ∪ removedVals (dm d) (dm a) else df a) ∧
    ((stepOnce ⟨dm, vl, d :: rest⟩ df).1.queue =
      rest ++ (peersList b d).filter
        (fun c => decide (removedVals (dm d) (dm c) ≠ ∅ ∧ c ∉ rest))) ∧
    ((stepOnce ⟨dm, vl, d :: rest⟩ df).1.val = vl) := by
  have hfold := foldProcess_spec (b := b) (dm d) (peersList b d) (peersList_nodup d)
    ⟨dm, vl, rest⟩ df
  obtain ⟨h1, h2, h3, h4⟩ := hfold
  have hmem : ∀ a : Addr b, (a ∈ peersList b d) = isPeer b d a := by
    intro a; exact propext mem_peersList
  refine ⟨fun a => ?_, fun a => ?_, ?_, ?_⟩
  · have := h1 a
    simpa [stepOnce, hmem a] using this
  · have := h2 a
    simpa [stepOnce, hmem a] using this
  · simpa [stepOnce] using h3
  · simpa [stepOnce] using h4

theorem stepOnce_dom_subset (st : GState b) (df : Diff b) (a : Addr b) :
    (stepOnce st df).1.dom a ⊆ st.dom a := by
  obtain ⟨dm, vl, q⟩ := st
  cases q with
  | nil => simp [stepOnce]
  | cons d rest =>
      have := (stepOnce_spec dm vl d rest df).1 a
      rw [this]
      by_cases h : isPeer b d a <;> simp [h, Finset.sdiff_subset]

theorem stepOnce_val (st : GState b) (df : Diff b) :
    (stepOnce st df).1.val = st.val := by
  obtain ⟨dm, vl, q⟩ := st
  cases q with
  | nil => simp [stepOnce]
  | cons d rest => exact (stepOnce_spec dm vl d rest df).2.2.2

/-- The termination measure strictly decreases at every iteration on a
nonempty queue: each appended peer pays for itself with at least one
removed domain value, and the pop shrinks the queue. -/
theorem mu_stepOnce_lt (st : GState b) (df : Diff b) (hq : st.queue ≠ []) :
    mu (stepOnce st df).1 < mu st := by
  obtain ⟨dm, vl, q⟩ := st
  cases q with
  | nil => exact absurd rfl hq
  | cons d rest =>
      obtain ⟨h1, _, h3, _⟩ := stepOnce_spec dm vl d rest df
      set F := (peersList b d).filter
        (fun c => decide (removedVals (dm d) (dm c) ≠ ∅ ∧ c ∉ rest)) with hF
      have hFnd : F.Nodup := (peersList_nodup d).filter _
      set A : Finset (Addr b) := F.toFinset with hA
      have hFlen : F.length = A.card := by
        rw [hA, List.toFinset_card_of_nodup hFnd]
      have hpoint : ∀ a : Addr b,
          ((stepOnce ⟨dm, vl, d :: rest⟩ df).1.dom a).card
            + (if a ∈ A then 1 else 0) ≤ (dm a).card := by
        intro a
        by_cases hmem : a ∈ A
        · have haF : a ∈ F := by
            rw [hA] at hmem; exact List.mem_toFinset.mp hmem
          have hprop := List.of_mem_filter haF
          have hcond : removedVals (dm d) (dm a) ≠ ∅ ∧ a ∉ rest := of_decide_eq_true hprop
          have hpeer : isPeer b d a := mem_peersList.mp (List.mem_of_mem_filter haF)
          rw [h1 a, if_pos hpeer]
          have hRsub : removedVals (dm d) (dm a) ⊆ dm a := removedVals_subset _ _
          have hcardlt : (dm a \ removedVals (dm d) (dm a)).card < (dm a).card := by
            rw [Finset.card_sdiff hRsub]
            obtain ⟨x, hx⟩ := Finset.nonempty_iff_ne_empty.mpr hcond.1
            have hRpos : 0 < (removedVals (dm d) (dm a)).card :=
              Finset.card_pos.mpr ⟨x, hx⟩
            have hRle : (removedVals (dm d) (dm a)).card ≤ (dm a).card :=
              Finset.card_le_card hRsub
            omega
          simp only [hmem, if_pos]
          omega
        · rw [h1 a]
          simp only [hmem, if_neg, if_false]
          have : (if isPeer b d a then dm a \ removedVals (dm d) (dm a) else dm a) ⊆ dm a := by
            by_cases h : isPeer b d a <;> simp [h, Finset.sdiff_subset]
          calc _ + 0 = _ := Nat.add_zero _
          _ ≤ (dm a).card := Finset.card_le_card this
  -- assemble the sums
      have hsum : (∑ a : Addr b, ((stepOnce ⟨dm, vl, d :: rest⟩ df).1.dom a).card) + A.card
          ≤ ∑ a : Addr b, (dm a).card := by
        have hcardA : A.card = ∑ a : Addr b, (if a ∈ A then 1 else 0) := by
          rw [Finset.sum_ite_mem, Finset.univ_inter, Finset.card_eq_sum_ones]
        rw [hcardA, ← Finset.sum_add_distrib]
        exact Finset.sum_le_sum (fun a _ => hpoint a)
      have hqlen : (stepOnce ⟨dm, vl, d :: rest⟩ df).1.queue.length
          = rest.length + A.card := by
        rw [h3, List.length_append, hFlen]
      unfold mu
      rw [hqlen]
      simp only [List.length_cons]
      omega

/-- The dirty-queue loop reaches the empty-queue fixpoint within `mu`
iterations. -/
theorem fixGo_queue_empty : ∀ (fuel : Nat) (st : GState b) (df : Diff b),
    mu st ≤ fuel → (fixGo fuel st df).1.queue = [] := by
  intro fuel
  induction fuel with
  | zero =>
      intro st df h
      have : st.queue.length = 0 := by
        have := Nat.le_zero.mp h
        unfold mu at this
        omega
      have hq : st.queue = [] := List.length_eq_zero.mp this
      simp [fixGo, hq]
  | succ n ih =>
      intro st df h
      by_cases hq : st.queue = []
      · simp [fixGo, hq]
      · have hlt := mu_stepOnce_lt st df hq
        have : mu (stepOnce st df).1 ≤ n := by omega
        simp only [fixGo, hq, if_neg, if_false]
        exact ih _ _ this

theorem fixGo_dom_subset : ∀ (fuel : Nat) (st : GState b) (df : Diff b) (a : Addr b),
    (fixGo fuel st df).1.dom a ⊆ st.dom a := by
  intro fuel
  induction fuel with
  | zero => intro st df a; simp [fixGo]
  | succ n ih =>
      intro st df a
      by_cases hq : st.queue = []
      · simp [fixGo, hq]
      · simp only [fixGo, hq, if_neg, if_false]
        exact (ih _ _ a).trans (stepOnce_dom_subset st df a)

theorem fixGo_val : ∀ (fuel : Nat) (st : GState b) (df : Diff b),
    (fixGo fuel st df).1.val = st.val := by
  intro fuel
  induction fuel with
  | zero => intro st df; simp [fixGo]
  | succ n ih =>
      intro st df
      by_cases hq : st.queue = []
      · simp [fixGo, hq]
      · simp only [fixGo, hq, if_neg, if_false]
        rw [ih, stepOnce_val]

/-- Diff soundness invariant: at every point of the loop, a cell's
current domain together with its recorded removals is exactly its domain
plus whatever the diff already held at entry. -/
theorem fixGo_dom_union : ∀ (fuel : Nat) (st : GState b) (df : Diff b) (a : Addr b),
    (fixGo fuel st df).1.dom a ∪ (fixGo fuel st df).2 a = st.dom a ∪ df a := by
  intro fuel
  induction fuel with
  | zero => intro st df a; simp [fixGo]
  | succ n ih =>
      intro st df a
      by_cases hq : st.queue = []
      · simp [fixGo, hq]
      · simp only [fixGo, hq, if_neg, if_false]
        rw [ih]
        obtain ⟨dm, vl, q⟩ := st
        cases q with
        | nil => exact absurd rfl hq
        | cons d rest =>
            obtain ⟨h1, h2, _, _⟩ := stepOnce_spec dm vl d rest df
            rw [h1 a, h2 a]
            by_cases hp : isPeer b d a
            · simp only [hp, if_pos]
              have hsub : removedVals (dm d) (dm a) ⊆ dm a := removedVals_subset _ _
              rw [Finset.union_comm (df a), ← Finset.union_assoc,
                Finset.sdiff_union_of_subset hsub]
            · simp [hp]

theorem fixArcConsistency_queue_empty (st : GState b) :
    (fixArcConsistency st).1.queue = [] :=
  fixGo_queue_empty (mu st) st _ le_rfl

theorem fixArcConsistency_dom_subset (st : GState b) (a : Addr b) :
    (fixArcConsistency st).1.dom a ⊆ st.dom a :=
  fixGo_dom_subset (mu st) st _ a

theorem fixArcConsistency_val (st : GState b) :
    (fixArcConsistency st).1.val = st.val :=
  fixGo_val (mu st) st _

theorem fixArcConsistency_dom_union (st : GState b) (a : Addr b) :
    (fixArcConsistency st).1.dom a ∪ (fixArcConsistency st).2 a = st.dom a := by
  have := fixGo_dom_union (mu st) st (fun _ => ∅) a
  simpa using this

theorem fixArcConsistency_diff_subset (st : GState b) (a : Addr b) :
    (fixArcConsistency st).2 a ⊆ st.dom a := by
  rw [← fixArcConsistency_dom_union st a]
  exact Finset.subset_union_right

/-- If a cell with domain contained in `{v}` is pending in the dirty
queue, then once the loop reaches its fixpoint, `v` has been removed
from the domain of every peer of that cell. -/
theorem fixGo_kill : ∀ (fuel : Nat) (st : GState b) (df : Diff b) (d : Addr b) (v : Nat),
    d ∈ st.queue → st.dom d ⊆ {v} → (fixGo fuel st df).1.queue = [] →
    ∀ c, isPeer b d c → v ∉ (fixGo fuel st df).1.dom c := by
  intro fuel
  induction fuel with
  | zero =>
      intro st df d v hd hsub hemp c hpeer
      simp only [fixGo] at hemp
      rw [hemp] at hd
      exact absurd hd (List.not_mem_nil d)
  | succ n ih =>
      intro st df d v hd hsub hemp c hpeer
      obtain ⟨dm, vl, q⟩ := st
      cases q with
      | nil => simp at hd
      | cons d0 rest =>
          have hqne : (GState.mk dm vl (d0 :: rest) : GState b).queue ≠ [] := by simp
          simp only [fixGo, if_neg hqne] at hemp ⊢
          rcases List.mem_cons.mp hd with hd0 | hrest
          · subst hd0
            have h1 := (stepOnce_spec dm vl d rest df).1 c
            have hnotmem : v ∉ (stepOnce ⟨dm, vl, d :: rest⟩ df).1.dom c := by
              rw [h1, if_pos hpeer]
              intro hvin
              have hv : v ∈ dm c := (Finset.mem_sdiff.mp hvin).1
              have hvR : v ∈ removedVals (dm d) (dm c) := by
                unfold removedVals
                rw [Finset.mem_filter]
                exact ⟨hv, by simp [Finset.sdiff_eq_empty_iff_subset.mpr hsub]⟩
              exact (Finset.mem_sdiff.mp hvin).2 hvR
            intro hvfin
            exact hnotmem (fixGo_dom_subset n _ _ c hvfin)
          · have hq' := (stepOnce_spec dm vl d0 rest df).2.2.1
            have hdq : d ∈ (stepOnce ⟨dm, vl, d0 :: rest⟩ df).1.queue := by
              rw [hq']; exact List.mem_append_left _ hrest
            have hdsub : (stepOnce ⟨dm, vl, d0 :: rest⟩ df).1.dom d ⊆ {v} :=
              (stepOnce_dom_subset _ df d).trans hsub
            exact ih _ _ d v hdq hdsub hemp c hpeer

/-- Invariant for the wipe cascade: every empty-domain cell is either
still pending in the dirty queue, or all of its peers are already
wiped. -/
def EmptyPending (st : GState b) : Prop :=
  ∀ a, st.dom a = ∅ → a ∈ st.queue ∨ ∀ c, isPeer b a c → st.dom c = ∅

instance (st : GState b) : Decidable (EmptyPending st) :=
  inferInstanceAs (Decidable (∀ a, st.dom a = ∅ → a ∈ st.queue ∨ ∀ c, isPeer b a c → st.dom c = ∅))

theorem removedVals_empty_dom (S : Finset Nat) : removedVals ∅ S = S := by
  unfold removedVals
  apply Finset.filter_true_of_mem
  intro v _
  simp

theorem stepOnce_emptyPending (st : GState b) (df : Diff b) (h : EmptyPending st) :
    EmptyPending (stepOnce st df).1 := by
  obtain ⟨dm, vl, q⟩ := st
  cases q with
  | nil => simpa [stepOnce] using h
  | cons d0 rest =>
      obtain ⟨h1, _, h3, _⟩ := stepOnce_spec dm vl d0 rest df
      intro a ha
      by_cases hold : dm a = ∅
      · rcases h a hold with hmem | hpeers
        · rcases List.mem_cons.mp hmem with rfl | hrest
          · right
            intro c hpeer
            rw [h1 c, if_pos hpeer, hold, removedVals_empty_dom, Finset.sdiff_self]
          · left
            rw [h3]; exact List.mem_append_left _ hrest
        · right
          intro c hpeer
          have hsub : (stepOnce ⟨dm, vl, d0 :: rest⟩ df).1.dom c ⊆ dm c :=
            stepOnce_dom_subset _ df c
          have hc : dm c = ∅ := hpeers c hpeer
          rw [hc] at hsub
          exact Finset.subset_empty.mp hsub
      · -- the cell was emptied by this very iteration, hence enqueued
        left
        have hpeer : isPeer b d0 a := by
          by_contra hnp
          rw [h1 a, if_neg hnp] at ha
          exact hold ha
        have hRne : removedVals (dm d0) (dm a) ≠ ∅ := by
          intro hRe
          rw [h1 a, if_pos hpeer, hRe, Finset.sdiff_empty] at ha
          exact hold ha
        rw [h3]
        by_cases hmem : a ∈ rest
        · exact List.mem_append_left _ hmem
        · refine List.mem_append_right _ ?_
          rw [List.mem_filter]
          exact ⟨mem_peersList.mpr hpeer, by simp [hRne, hmem]⟩

theorem fixGo_emptyPending : ∀ (fuel : Nat) (st : GState b) (df : Diff b),
    EmptyPending st → EmptyPending (fixGo fuel st df).1 := by
  intro fuel
  induction fuel with
  | zero => intro st df h; simpa [fixGo] using h
  | succ n ih =>
      intro st df h
      by_cases hq : st.queue = []
      · simpa [fixGo, hq] using h
      · simp only [fixGo, if_neg hq]
        exact ih _ _ (stepOnce_emptyPending st df h)

/-- C3: for every grid state, running `fixArcConsistency` and then
`unfixArcConsistency` on the diff it returned restores every cell's
domain to exactly (set equality) the domain it had before the call. -/
theorem C3_diff_round_trip (b : Nat) (st : GState b) :
    ∀ a, (unfixArcConsistency (fixArcConsistency st).1 (fixArcConsistency st).2).dom a
      = st.dom a := by
  intro a
  show (fixArcConsistency st).1.dom a ∪ (fixArcConsistency st).2 a = st.dom a
  exact fixArcConsistency_dom_union st a

/-- C9: `fixArcConsistency` terminates on every grid: the dirty-queue
loop, run with fuel equal to the measure `total domain size + queue
length`, reaches the empty-queue fixpoint, because every iteration
strictly decreases that finite measure. -/
theorem C9_fixArcConsistency_terminates (b : Nat) (st : GState b) :
    (fixArcConsistency st).1.queue = [] :=
  fixArcConsistency_queue_empty st

/-- C10: when the popped dirty cell has an empty domain, every value of
every peer is removed (leaving every peer's domain empty) and each peer
that still had values is enqueued; consequently, for a grid state in
which every empty-domain cell is still pending (or already wiped), the
wipe propagates through `fixArcConsistency` to every transitively
connected cell. -/
theorem C10_empty_domain_wipes_peers (b : Nat) (st : GState b) (h : EmptyPending st) :
    (∀ (dm : Addr b → Finset Nat) (vl : Addr b → Option Nat) (d : Addr b)
        (rest : List (Addr b)) (df : Diff b),
      st = ⟨dm, vl, d :: rest⟩ → dm d = ∅ →
      ∀ c, isPeer b d c →
        (stepOnce st df).1.dom c = ∅ ∧ (dm c ≠ ∅ → c ∈ (stepOnce st df).1.queue)) ∧
    (∀ a c, Relation.ReflTransGen (isPeer b) a c →
      (fixArcConsistency st).1.dom a = ∅ → (fixArcConsistency st).1.dom c = ∅) := by
  constructor
  · intro dm vl d rest df hst hde c hpeer
    subst hst
    obtain ⟨h1, _, h3, _⟩ := stepOnce_spec dm vl d rest df
    constructor
    · rw [h1 c, if_pos hpeer, hde, removedVals_empty_dom, Finset.sdiff_self]
    · intro hcne
      rw [h3]
      by_cases hmem : c ∈ rest
      · exact List.mem_append_left _ hmem
      · refine List.mem_append_right _ ?_
        rw [List.mem_filter]
        refine ⟨mem_peersList.mpr hpeer, ?_⟩
        have : removedVals (dm d) (dm c) ≠ ∅ := by
          rw [hde, removedVals_empty_dom]; exact hcne
        simp [this, hmem]
  · intro a c hpath
    induction hpath with
    | refl => exact fun h => h
    | tail _ hbc ih =>
        intro ha
        have hF : EmptyPending (fixArcConsistency st).1 :=
          fixGo_emptyPending (mu st) st _ h
        have hqe := fixArcConsistency_queue_empty st
        rcases hF _ (ih ha) with hmem | hpeers
        · rw [hqe] at hmem; exact absurd hmem (List.not_mem_nil _)
        · exact hpeers _ hbc

/-- The state used to witness C10: a wiped cell pending in the queue of
a base-4 grid whose other cells still have full domains. -/
def stC10 : GState 4 :=
  ⟨fun a => if a = ((0 : Fin 4), (0 : Fin 4)) then ∅ else {0, 1, 2, 3},
   fun _ => none, [((0 : Fin 4), (0 : Fin 4))]⟩

theorem C10_witness : EmptyPending stC10 ∧
    (∀ a c, Relation.ReflTransGen (isPeer 4) a c →
      (fixArcConsistency stC10).1.dom a = ∅ → (fixArcConsistency stC10).1.dom c = ∅) :=
  ⟨by decide, (C10_empty_domain_wipes_peers 4 stC10 (by decide)).2⟩

/-- Result of `_recSolve`, mirroring the three shapes a Python call can
return: `None`, the grid object, or a list of results (the accumulator
`ret`, whose elements are whatever recursive calls returned). -/
inductive PyRes (b : Nat) where
  | pyNone
  | pyGrid (g : GState b)
  | pyList (xs : List (PyRes b))

/-- `Grid.unsolvedCells()`: the cells whose `value` is unset, in
canonical order. -/
def unsolvedCells (st : GState b) : List (Addr b) :=
  (allAddrs b).filter (fun a => decide (st.val a = none))

/-- Python's `min(remainingCells, key=lambda c: len(c.domain))`: the
first element attaining the minimal domain size. -/
def mostConstrained (st : GState b) (c0 : Addr b) (l : List (Addr b)) : Addr b :=
  l.foldl (fun best c => if (st.dom c).card < (st.dom best).card then c else best) c0

/-- Total number of removals recorded in a diff
(`sum of len(changes) over diff.values()`). -/
def diffSize (df : Diff b) : Nat :=
  ∑ a : Addr b, (df a).card

/-- Stable insertion, modelling one step of Python's stable sort on the
expense list keyed by the removal count. -/
def insertByCount (x : Nat × Nat) : List (Nat × Nat) → List (Nat × Nat)
  | [] => [x]
  | y :: ys => if y.2 ≤ x.2 then y :: insertByCount x ys else x :: y :: ys

/-- `expenseList.sort(key=lambda x: x[1])`: stable sort by the second
component. -/
def sortByCount (l : List (Nat × Nat)) : List (Nat × Nat) :=
  l.foldl (fun acc x => insertByCount x acc) []

/-- Iteration order over a Python set of small nonnegative integers,
resolved to ascending order: the elements of `s` listed increasingly. -/
def ascVals (s : Finset Nat) : List Nat :=
  (List.range (s.sup id + 1)).filter (fun v => decide (v ∈ s))

/-- The expense probe of `_recSolve`: for each candidate value run a
full propagation pass, count the removals, and immediately reverse it. -/
def probeVals (st : GState b) (cand : List Nat) : GState b × List (Nat × Nat) :=
  cand.foldl (fun acc tv =>
    let p := fixArcConsistency acc.1
    (unfixArcConsistency p.1 p.2, acc.2 ++ [(tv, diffSize p.2)])) (st, [])

/-- The guess of `_recSolve`: `cell.value = testVal`,
`cell.domain = set([testVal])`, `grid.dirtyCells.append(cell)`. -/
def commitState (st : GState b) (cell : Addr b) (tv : Nat) : GState b :=
  ⟨Function.update st.dom cell {tv}, Function.update st.val cell (some tv),
   st.queue ++ [cell]⟩

/-- The candidate loop of `_recSolve`: commit a value, propagate,
recurse; on a `None` consequence roll the propagation back, otherwise
short-circuit (single mode) or accumulate and continue (complete mode).
After the loop the chosen cell is reset to its original domain with no
value. -/
def tryVals (rec : GState b → PyRes b × GState b) (cell : Addr b)
    (origDomain : Finset Nat) (complete : Bool) :
    List Nat → GState b → List (PyRes b) → PyRes b × GState b
  | [], st, ret =>
      (if complete then PyRes.pyList ret else PyRes.pyNone,
       ⟨Function.update st.dom cell origDomain, Function.update st.val cell none, st.queue⟩)
  | tv :: tvs, st, ret =>
      let p := fixArcConsistency (commitState st cell tv)
      let r := rec p.1
      match r.1 with
      | PyRes.pyNone =>
          tryVals rec cell origDomain complete tvs (unfixArcConsistency r.2 p.2) ret
      | c =>
          if complete then tryVals rec cell origDomain complete tvs r.2 (ret ++ [c])
          else (c, r.2)

/-- `_recSolve(grid, complete)`, with fuel bounding the recursion depth
(each recursive call strictly decreases the number of unsolved cells, so
`base*base + 1` fuel is always enough). -/
def recSolve : Nat → GState b → Bool → PyRes b × GState b
  | 0, st, _ => (PyRes.pyNone, st)
  | fuel + 1, st, complete =>
      match unsolvedCells st with
      | [] => (PyRes.pyGrid st, st)
      | u :: us =>
          let cell := mostConstrained st u us
          if (st.dom cell).card = 0 then (PyRes.pyNone, st)
          else
            let origDomain := st.dom cell
            let pr := probeVals st (ascVals origDomain)
            let checkList := (sortByCount pr.2).map (fun x => x.1)
            tryVals (fun s => recSolve fuel s complete) cell origDomain complete
              checkList pr.1 []

/-- `solve(grid, complete)`: initial full propagation pass, then the
recursive search. -/
def solve (st : GState b) (complete : Bool) : PyRes b × GState b :=
  recSolve (b * b + 1) (fixArcConsistency st).1 complete

/-- A grid state as built by inserting one cell per address in row-major
order (`parsePuzzleFile` and the generator's empty-grid setup): a given
value yields a singleton domain and is enqueued, a blank cell gets the
full domain `range base`. -/
def initialGrid (b : Nat) (g : Addr b → Option Nat) : GState b :=
  ⟨fun a => match g a with | some v => {v} | none => Finset.range b,
   g, (allAddrs b).filter (fun a => decide (g a ≠ none))⟩

/-- The point-symmetric counterpart `(base-row-1, base-col-1)` used by
`complicatePuzzle`. -/
def reflectAddr (a : Addr b) : Addr b :=
  (⟨b - 1 - a.1.val, by have := a.1.isLt; omega⟩,
   ⟨b - 1 - a.2.val, by have := a.2.isLt; omega⟩)

/-- `reduce(lambda a,b: a|b, grid.rows) - grid.unsolvedCells()`: the
cells whose `value` is set, in canonical order. -/
def solvedList (st : GState b) : List (Addr b) :=
  (allAddrs b).filter (fun a => decide (st.val a ≠ none))

/-- The pair-clearing mutation of `complicatePuzzle`: both cells of the
drawn symmetric pair get `value = None` and `domain = set(range(base))`
(the cleared `given` flags are threaded separately). -/
def clearPairState (st : GState b) (p : Addr b) : GState b :=
  ⟨Function.update (Function.update st.dom p (Finset.range b)) (reflectAddr p)
     (Finset.range b),
   Function.update (Function.update st.val p none) (reflectAddr p) none, st.queue⟩

/-- `for dep in reduce(lambda a,b: a|b, grid.rows) - grid.unsolvedCells():
grid.dirtyCells.append(dep)`. -/
def enqueueSolved (st : GState b) : GState b :=
  ⟨st.dom, st.val, st.queue ++ solvedList st⟩

/-- One body of `complicatePuzzle` past the retry check: clear the pair,
enqueue the solved cells, propagate, enumerate all solutions, reverse
the propagation; returns the enumeration result together with the grid
state the call continues (or returns) with. -/
def complicateRun (st : GState b) (p : Addr b) : PyRes b × GState b :=
  ((solve (fixArcConsistency (enqueueSolved (clearPairState st p))).1 true).1,
   unfixArcConsistency
     (solve (fixArcConsistency (enqueueSolved (clearPairState st p))).1 true).2
     (fixArcConsistency (enqueueSolved (clearPairState st p))).2)

/-- `complicatePuzzle(grid)`, with the random address draws supplied as
an explicit list (one head per recursive call; `none` when the modelled
draws are exhausted, or when the Python code would raise a `TypeError`
by taking `len()` of a non-list result of the complete search).  On the
branch taken when both cells of the drawn symmetric pair hold values,
the pair is cleared (value unset, `given` flag cleared, domain reset to
the full range), every still-solved cell is enqueued, a propagation pass
runs, all solutions are enumerated, the propagation is reversed, and the
grid is returned if the enumeration did not have length one. -/
def complicatePuzzle : List (Addr b) → GState b × (Addr b → Bool) →
    Option (GState b × (Addr b → Bool))
  | [], _ => none
  | p :: rest, (st, gv) =>
      if st.val p = none ∨ st.val (reflectAddr p) = none then
        complicatePuzzle rest (st, gv)
      else
        let gv1 := Function.update (Function.update gv p false) (reflectAddr p) false
        let r := complicateRun st p
        match r.1 with
        | PyRes.pyList xs =>
            if xs.length ≠ 1 then some (r.2, gv1) else complicatePuzzle rest (r.2, gv1)
        | _ => none

/-- A complete valid base-4 grid (the seed solution used in the
generator scenarios): cell `(r, c)` holds `c XOR mask r` with the masks
`0, 2, 1, 3`. -/
def X4 (a : Addr 4) : Nat :=
  Nat.xor a.2.val ((a.1.val % 2) * 2 + a.1.val / 2)

/-- The six cells already cleared in the mid-generation state used for
the C4 scenario (three accepted symmetric-pair removals). -/
def clearedC4 : List (Addr 4) :=
  [((0 : Fin 4), (1 : Fin 4)), ((0 : Fin 4), (2 : Fin 4)),
   ((1 : Fin 4), (0 : Fin 4)), ((2 : Fin 4), (3 : Fin 4)),
   ((3 : Fin 4), (1 : Fin 4)), ((3 : Fin 4), (2 : Fin 4))]

/-- The mid-generation grid state for the C4 scenario: the seed solution
`X4` with the six cells of `clearedC4` cleared. -/
def stG4 : GState 4 :=
  ⟨fun a => if a ∈ clearedC4 then Finset.range 4 else {X4 a},
   fun a => if a ∈ clearedC4 then none else some (X4 a), []⟩

/-- The `given` flags of the C4 scenario state. -/
def givG4 : Addr 4 → Bool := fun a => decide (a ∉ clearedC4)

/-- Discriminator: is the Python result a list object? -/
def isPyList : PyRes b → Bool
  | PyRes.pyList _ => true
  | _ => false

/-- `len` of a Python result when it is a list (`0` otherwise; the code
paths compared below only apply it to lists). -/
def pyLen : PyRes b → Nat
  | PyRes.pyList xs => xs.length
  | _ => 0

/-- A complete assignment that satisfies the sudoku constraints: values
in `[0, base)` and distinct on every pair of peer cells. -/
def LatinOK (b : Nat) (f : Addr b → Nat) : Prop :=
  (∀ a, f a < b) ∧ ∀ a c, isPeer b a c → f a ≠ f c

instance (b : Nat) (f : Addr b → Nat) : Decidable (LatinOK b f) :=
  inferInstanceAs (Decidable ((∀ a, f a < b) ∧ ∀ a c, isPeer b a c → f a ≠ f c))

/-- The assignment `f` is reachable from the current domains: every
cell's value lies in that cell's domain. -/
def ExtendsDoms (st : GState b) (f : Addr b → Nat) : Prop :=
  ∀ a, f a ∈ st.dom a

instance (st : GState b) (f : Addr b → Nat) : Decidable (ExtendsDoms st f) :=
  inferInstanceAs (Decidable (∀ a, f a ∈ st.dom a))

/-- The value permutation swapping `1` and `2`. -/
def swap12 (n : Nat) : Nat :=
  if n = 1 then 2 else if n = 2 then 1 else n

/-- The second valid completion of the C4 scenario state: `X4` with the
values `1` and `2` exchanged everywhere. -/
def Y4 (a : Addr 4) : Nat := swap12 (X4 a)

/-- The fully solved base-4 grid state corresponding to `X4` (all cells
committed, singleton domains, empty queue). -/
def stX4full : GState 4 := ⟨fun a => {X4 a}, fun a => some (X4 a), []⟩

/-- The pair address drawn in the C4 scenario. -/
def p13 : Addr 4 := ((1 : Fin 4), (3 : Fin 4))

/-- The C4 scenario state right after `complicatePuzzle` clears the pair
`(1,3)`, `(2,0)` of `stG4` and before the dirty cells are enqueued. -/
def st1C4 : GState 4 :=
  ⟨Function.update (Function.update stG4.dom p13 (Finset.range 4)) (reflectAddr p13)
     (Finset.range 4),
   Function.update (Function.update stG4.val p13 none) (reflectAddr p13) none, []⟩

/-- The C4 scenario state with every still-solved cell enqueued. -/
def st2C4 : GState 4 := ⟨st1C4.dom, st1C4.val, st1C4.queue ++ solvedList st1C4⟩

/-- The C4 scenario state after the propagation pass, as handed to the
complete-mode enumeration. -/
def st3C4 : GState 4 := (fixArcConsistency st2C4).1

/-- `Grid.deepCopy`: its first statement `newGrid.fails = self.fails`
reads the dynamic attribute `fails`, which nothing in the repository
ever assigns (`Grid.__init__` does not define it), so on a grid built by
the constructor the read raises `AttributeError` — modelled by the
`none` case of the threaded attribute.  Otherwise the copy carries the
same domain, value and given data at every address, and the fresh
`insertCellAt` calls enqueue every valued cell in row-major order. -/
def deepCopy (g : GState b) (gv : Addr b → Bool) (fails : Option Nat) :
    Option (GState b × (Addr b → Bool) × Option Nat) :=
  match fails with
  | none => none
  | some f => some (⟨g.dom, g.val, solvedList g⟩, gv, some f)

/-- A partially populated `Grid` for `insertCellAt`: the three group
families as sets of cell identifiers, plus the dirty queue.  (`base`
need not be fully populated here; cells are identified by a numeric id
standing for the Python object identity.) -/
structure PGrid where
  base : Nat
  rows : Nat → Finset Nat
  columns : Nat → Finset Nat
  blocks : Nat → Finset Nat
  dirtyCells : List Nat

/-- `Grid.blockAt`: the index of the block containing `(row, column)`,
or `none` for the raised `IndexError` when a coordinate is out of
range. -/
def blockAt (g : PGrid) (row column : Nat) : Option Nat :=
  if row < g.base ∧ column < g.base then
    some (intSqrt g.base * (row / intSqrt g.base) + column / intSqrt g.base)
  else none

/-- `Grid.insertCellAt(cell, row, column)`: if the inserted cell itself
is not already a member of the target column, row or block group, add it
to all three and, when it carries a value, append it to the dirty queue;
otherwise do nothing.  `none` models the `IndexError` escaping from
`blockAt`. -/
def insertCellAt (g : PGrid) (cell : Nat) (hasValue : Bool) (row column : Nat) :
    Option PGrid :=
  match blockAt g row column with
  | none => none
  | some bi =>
      if cell ∉ g.columns column ∧ cell ∉ g.rows row ∧ cell ∉ g.blocks bi then
        some { g with
          columns := Function.update g.columns column (insert cell (g.columns column)),
          rows := Function.update g.rows row (insert cell (g.rows row)),
          blocks := Function.update g.blocks bi (insert cell (g.blocks bi)),
          dirtyCells := if hasValue then g.dirtyCells ++ [cell] else g.dirtyCells }
      else some g

/-- An empty base-4 `Grid`. -/
def pg0 : PGrid := ⟨4, fun _ => ∅, fun _ => ∅, fun _ => ∅, []⟩

/-- `pg0` after inserting cell `0` (no value) at `(0,0)`. -/
def pg1 : PGrid := (insertCellAt pg0 0 false 0 0).getD pg0

/-- `pg1` after inserting a second, distinct cell `1` at the already
occupied address `(0,0)`. -/
def pg2 : PGrid := (insertCellAt pg1 1 false 0 0).getD pg0

/-- C2: the claim fails on the code: on a fully assigned consistent grid,
`solve(grid, complete=True)` returns the grid object itself, not a list;
and on the mid-generation state `st3C4`, which two distinct fully
consistent assignments (`X4` and `Y4`) extend, the enumeration returns a
one-element list, missing a solution.  This contradicts the function's
own contract of returning the list of all solutions. -/
theorem C2_complete_mode_broken :
    isPyList (solve stX4full true).1 = false ∧
    pyLen (solve st3C4 true).1 = 1 ∧
    LatinOK 4 X4 ∧ LatinOK 4 Y4 ∧ ExtendsDoms st3C4 X4 ∧ ExtendsDoms st3C4 Y4 ∧
    X4 p13 ≠ Y4 p13 := by decide

/-- C4: the generator's uniqueness test is broken, so the claimed
rejection never happens: drawing the pair `(1,3)` on the mid-generation
state `stG4` clears a pair whose removal leaves two valid completions
(`X4` and `Y4`), yet the enumeration reports one solution, the removal
is accepted and `complicatePuzzle` keeps recursing instead of returning
(`none` here: the modelled draws are exhausted without any rejection). -/
theorem C4_generator_accepts_nonunique :
    (complicatePuzzle [p13] (stG4, givG4)).isSome = false ∧
    stG4.val p13 = some 1 ∧ givG4 p13 = true ∧
    LatinOK 4 X4 ∧ LatinOK 4 Y4 ∧ ExtendsDoms st3C4 X4 ∧ ExtendsDoms st3C4 Y4 ∧
    X4 p13 ≠ Y4 p13 := by decide

/-- C5: `deepCopy` on a fully populated grid built by the repository's
own code (where the `fails` attribute is never assigned) raises
`AttributeError` instead of returning a copy; with the attribute
present, the copy does hold the same domains, values and given flags at
every address. -/
theorem C5_deepCopy_attribute_error :
    deepCopy stX4full givG4 none = none ∧
    deepCopy stX4full givG4 (some 0) =
      some (⟨stX4full.dom, stX4full.val, solvedList stX4full⟩, givG4, some 0) :=
  ⟨rfl, rfl⟩

/-- C8: the claim fails on the code: `insertCellAt` only checks whether
the cell being inserted is itself already in the groups, so inserting a
distinct cell at an occupied address is not a no-op — here cell `0`
occupies `(0,0)` yet inserting cell `1` there changes the row group. -/
theorem C8_counterexample :
    (insertCellAt pg0 0 false 0 0).isSome = true ∧
    0 ∈ pg1.rows 0 ∧ 0 ∈ pg1.columns 0 ∧
    (insertCellAt pg1 1 false 0 0).isSome = true ∧
    pg2.rows 0 ≠ pg1.rows 0 := by decide

/-- C8 (amended): `insertCellAt(cell, row, col)` is a no-op exactly when
the inserted cell itself already belongs to the target row, column or
block group: in that case groups and dirty queue are unchanged. -/
theorem C8_insertCellAt_noop (g : PGrid) (cell : Nat) (hv : Bool) (row column bi : Nat)
    (hb : blockAt g row column = some bi)
    (hmem : cell ∈ g.rows row ∨ cell ∈ g.columns column ∨ cell ∈ g.blocks bi) :
    insertCellAt g cell hv row column = some g := by
  have h : ¬(cell ∉ g.columns column ∧ cell ∉ g.rows row ∧ cell ∉ g.blocks bi) := by
    tauto
  simp only [insertCellAt, hb]
  rw [if_neg h]

theorem C8_witness :
    (blockAt pg1 0 0 = some 0 ∧ (0 ∈ pg1.rows 0 ∨ 0 ∈ pg1.columns 0 ∨ 0 ∈ pg1.blocks 0)) ∧
    insertCellAt pg1 0 true 0 0 = some pg1 :=
  ⟨⟨by decide, by decide⟩, C8_insertCellAt_noop pg1 0 true 0 0 0 (by decide) (by decide)⟩

/-- Discriminator: is the Python result `None`? -/
def isPyNone : PyRes b → Bool
  | PyRes.pyNone => true
  | _ => false

/-- An over-constrained base-4 puzzle: two given `0`s in row 0. -/
def gBad : Addr 4 → Option Nat := fun a =>
  if a = ((0 : Fin 4), (0 : Fin 4)) then some 0
  else if a = ((0 : Fin 4), (1 : Fin 4)) then some 0 else none

/-- The over-constrained puzzle after the initial propagation pass (the
state `_recSolve` starts from inside `solve`): the conflicting givens
wiped every domain. -/
def stBad : GState 4 := (fixArcConsistency (initialGrid 4 gBad)).1

theorem mostConstrained_mem (st : GState b) :
    ∀ (l : List (Addr b)) (c0 : Addr b), mostConstrained st c0 l ∈ c0 :: l := by
  intro l
  induction l with
  | nil => intro c0; simp [mostConstrained]
  | cons x xs ih =>
      intro c0
      show mostConstrained st (if (st.dom x).card < (st.dom c0).card then x else c0) xs
        ∈ c0 :: x :: xs
      by_cases hc : (st.dom x).card < (st.dom c0).card
      · rw [if_pos hc]
        rcases List.mem_cons.mp (ih x) with h | h
        · rw [h]; exact List.mem_cons.mpr (Or.inr (List.mem_cons_self x xs))
        · exact List.mem_cons.mpr (Or.inr (List.mem_cons.mpr (Or.inr h)))
      · rw [if_neg hc]
        rcases List.mem_cons.mp (ih c0) with h | h
        · rw [h]; exact List.mem_cons_self c0 _
        · exact List.mem_cons.mpr (Or.inr (List.mem_cons.mpr (Or.inr h)))

theorem mostConstrained_min (st : GState b) :
    ∀ (l : List (Addr b)) (c0 : Addr b) (x : Addr b), x ∈ c0 :: l →
      (st.dom (mostConstrained st c0 l)).card ≤ (st.dom x).card := by
  intro l
  induction l with
  | nil =>
      intro c0 x hx
      rcases List.mem_cons.mp hx with h | h
      · rw [h]; exact le_rfl
      · exact absurd h (List.not_mem_nil x)
  | cons y ys ih =>
      intro c0 x hx
      show (st.dom (mostConstrained st
        (if (st.dom y).card < (st.dom c0).card then y else c0) ys)).card ≤ (st.dom x).card
      by_cases hc : (st.dom y).card < (st.dom c0).card
      · rw [if_pos hc]
        rcases List.mem_cons.mp hx with h | h
        · rw [h]
          exact (ih y y (List.mem_cons_self y ys)).trans (Nat.le_of_lt hc)
        · rcases List.mem_cons.mp h with h2 | h2
          · rw [h2]
            exact ih y y (List.mem_cons_self y ys)
          · exact ih y x (List.mem_cons.mpr (Or.inr h2))
      · rw [if_neg hc]
        rcases List.mem_cons.mp hx with h | h
        · rw [h]
          exact ih c0 c0 (List.mem_cons_self c0 ys)
        · rcases List.mem_cons.mp h with h2 | h2
          · rw [h2]
            exact (ih c0 c0 (List.mem_cons_self c0 ys)).trans (Nat.le_of_not_lt hc)
          · exact ih c0 x (List.mem_cons.mpr (Or.inr h2))

/-- C6 (amended): whenever the most-constrained cell selected by the
recursive search step has an empty domain (equivalently, some unsolved
cell has an empty domain), `_recSolve` returns the failure signal `None`
in BOTH modes — the code has no empty-list branch — committing nothing
and leaving the state untouched. -/
theorem C6_empty_domain_returns_none (b : Nat) (fuel : Nat) (st : GState b)
    (complete : Bool) (hne : unsolvedCells st ≠ [])
    (hempty : ∃ a ∈ unsolvedCells st, st.dom a = ∅) :
    recSolve (fuel + 1) st complete = (PyRes.pyNone, st) := by
  obtain ⟨u, us, hu⟩ : ∃ u us, unsolvedCells st = u :: us := by
    cases h : unsolvedCells st with
    | nil => exact absurd h hne
    | cons u us => exact ⟨u, us, rfl⟩
  obtain ⟨a, ha, hda⟩ := hempty
  have hcard : (st.dom (mostConstrained st u us)).card = 0 := by
    have := mostConstrained_min st us u a (hu ▸ ha)
    rw [hda] at this
    simpa using this
  simp only [recSolve, hu]
  rw [if_pos hcard]

/-- C6 counterexample state facts: on the wiped over-constrained grid,
the complete-mode recursive step returns `None`, not the empty list the
claim promises for complete mode. -/
theorem C6_counterexample :
    ((0 : Fin 4), (2 : Fin 4)) ∈ unsolvedCells stBad ∧
    stBad.dom ((0 : Fin 4), (2 : Fin 4)) = ∅ ∧
    isPyNone (recSolve 17 stBad true).1 = true ∧
    isPyList (recSolve 17 stBad true).1 = false := by decide

theorem C6_witness :
    (unsolvedCells stBad ≠ [] ∧
      ((0 : Fin 4), (2 : Fin 4)) ∈ unsolvedCells stBad ∧
      stBad.dom ((0 : Fin 4), (2 : Fin 4)) = ∅) ∧
    recSolve 17 stBad true = (PyRes.pyNone, stBad) :=
  ⟨⟨by decide, by decide, by decide⟩,
   C6_empty_domain_returns_none 4 16 stBad true (by decide)
     ⟨((0 : Fin 4), (2 : Fin 4)), by decide, by decide⟩⟩

theorem fixArcConsistency_nil (st : GState b) (hq : st.queue = []) :
    fixArcConsistency st = (st, fun _ => ∅) := by
  unfold fixArcConsistency
  cases hmu : mu st with
  | zero => simp [fixGo]
  | succ n => simp [fixGo, hq]

theorem unfixArcConsistency_empty (st : GState b) :
    unfixArcConsistency st (fun _ => ∅) = st := by
  obtain ⟨dm, vl, q⟩ := st
  unfold unfixArcConsistency
  simp

theorem diffSize_empty : diffSize (b := b) (fun _ => ∅) = 0 := by
  unfold diffSize
  simp

/-- On a state whose dirty queue is already empty (as at every recursive
entry of `_recSolve`), the expense probe is the identity and every
counted cost is zero. -/
theorem probeVals_spec (st : GState b) (hq : st.queue = []) (cand : List Nat) :
    probeVals st cand = (st, cand.map (fun tv => (tv, 0))) := by
  suffices h : ∀ acc2 : List (Nat × Nat),
      cand.foldl (fun acc tv =>
        let p := fixArcConsistency acc.1
        (unfixArcConsistency p.1 p.2, acc.2 ++ [(tv, diffSize p.2)])) (st, acc2)
      = (st, acc2 ++ cand.map (fun tv => (tv, 0))) by
    have := h []
    simpa [probeVals] using this
  induction cand with
  | nil => intro acc2; simp
  | cons tv tvs ih =>
      intro acc2
      have hfix : fixArcConsistency st = (st, fun _ => ∅) := fixArcConsistency_nil st hq
      simp only [List.foldl_cons, hfix, unfixArcConsistency_empty, diffSize_empty]
      rw [ih (acc2 ++ [(tv, 0)])]
      simp

theorem insertByCount_zeroKey (x : Nat × Nat) :
    ∀ l : List (Nat × Nat), (∀ y ∈ l, y.2 = 0) → insertByCount x l = l ++ [x] := by
  intro l
  induction l with
  | nil => intro _; rfl
  | cons y ys ih =>
      intro h
      have hy : y.2 = 0 := h y (List.mem_cons_self y ys)
      have : y.2 ≤ x.2 := by omega
      simp only [insertByCount, if_pos this]
      rw [ih (fun z hz => h z (List.mem_cons.mpr (Or.inr hz)))]
      simp

/-- A stable sort of an expense list whose keys are all zero returns the
list unchanged. -/
theorem sortByCount_zeroKey :
    ∀ l : List (Nat × Nat), (∀ y ∈ l, y.2 = 0) → sortByCount l = l := by
  suffices h : ∀ (l acc : List (Nat × Nat)), (∀ y ∈ l, y.2 = 0) → (∀ y ∈ acc, y.2 = 0) →
      l.foldl (fun acc x => insertByCount x acc) acc = acc ++ l by
    intro l hl
    have := h l [] hl (by simp)
    simpa [sortByCount] using this
  intro l
  induction l with
  | nil => intro acc _ _; simp
  | cons x xs ih =>
      intro acc hl hacc
      simp only [List.foldl_cons]
      rw [insertByCount_zeroKey x acc hacc]
      rw [ih (acc ++ [x]) (fun z hz => hl z (List.mem_cons.mpr (Or.inr hz)))]
      · simp
      · intro y hy
        rcases List.mem_append.mp hy with h1 | h1
        · exact hacc y h1
        · have : y = x := by simpa using h1
          rw [this]
          exact hl x (List.mem_cons_self x xs)

theorem mem_ascVals {s : Finset Nat} {v : Nat} : v ∈ ascVals s ↔ v ∈ s := by
  unfold ascVals
  rw [List.mem_filter]
  constructor
  · intro h
    simpa using h.2
  · intro h
    refine ⟨List.mem_range.mpr ?_, by simpa using h⟩
    have : v ≤ s.sup id := Finset.le_sup (f := id) h
    omega

theorem mem_unsolvedCells {st : GState b} {a : Addr b} :
    a ∈ unsolvedCells st ↔ st.val a = none := by
  unfold unsolvedCells
  rw [List.mem_filter]
  simp [mem_allAddrs]

/-- Invariant of every state the engine manipulates: a committed cell's
domain is contained in its value's singleton (the spec claims equality;
the containment is what the code maintains). -/
def ValSub (st : GState b) : Prop :=
  ∀ a v, st.val a = some v → st.dom a ⊆ {v}

instance (st : GState b) : Decidable (ValSub st) :=
  inferInstanceAs (Decidable (∀ a v, st.val a = some v → st.dom a ⊆ {v}))

theorem ValSub_fixArc (st : GState b) (h : ValSub st) :
    ValSub (fixArcConsistency st).1 := by
  intro a v hv
  rw [fixArcConsistency_val] at hv
  exact (fixArcConsistency_dom_subset st a).trans (h a v hv)

/-- The resolved candidate order of `_recSolve` at an empty-queue entry:
all probe costs are zero, the stable sort keeps the order, and the check
list is just the ascending candidate list. -/
theorem recSolve_step (fuel : Nat) (st : GState b) (complete : Bool) (u : Addr b)
    (us : List (Addr b)) (hu : unsolvedCells st = u :: us) (hq : st.queue = [])
    (hc : ¬ (st.dom (mostConstrained st u us)).card = 0) :
    recSolve (fuel + 1) st complete =
      tryVals (fun s => recSolve fuel s complete) (mostConstrained st u us)
        (st.dom (mostConstrained st u us)) complete
        (ascVals (st.dom (mostConstrained st u us))) st [] := by
  simp only [recSolve, hu]
  rw [if_neg hc]
  rw [probeVals_spec st hq]
  have hkeys : ∀ y ∈ (ascVals (st.dom (mostConstrained st u us))).map
      (fun tv => (tv, 0)), y.2 = 0 := by
    intro y hy
    obtain ⟨tv, _, rfl⟩ := List.mem_map.mp hy
    rfl
  rw [sortByCount_zeroKey _ hkeys, List.map_map]
  have hid : ((fun x : Nat × Nat => x.1) ∘ fun tv : Nat => (tv, 0)) = id := rfl
  rw [hid, List.map_id]

theorem tryVals_cons (rec : GState b → PyRes b × GState b) (cell : Addr b)
    (orig : Finset Nat) (complete : Bool) (tv : Nat) (tvs : List Nat)
    (st : GState b) (ret : List (PyRes b)) :
    tryVals rec cell orig complete (tv :: tvs) st ret =
      (match (rec (fixArcConsistency (commitState st cell tv)).1).1 with
       | PyRes.pyNone => tryVals rec cell orig complete tvs
           (unfixArcConsistency (rec (fixArcConsistency (commitState st cell tv)).1).2
             (fixArcConsistency (commitState st cell tv)).2) ret
       | c =>
          if complete then tryVals rec cell orig complete tvs
            (rec (fixArcConsistency (commitState st cell tv)).1).2 (ret ++ [c])
          else (c, (rec (fixArcConsistency (commitState st cell tv)).1).2)) := rfl

theorem ValSub_commit (st : GState b) (cell : Addr b) (tv : Nat) (h : ValSub st) :
    ValSub (commitState st cell tv) := by
  intro a v hv
  have hv' : Function.update st.val cell (some tv) a = some v := hv
  show Function.update st.dom cell {tv} a ⊆ {v}
  by_cases hac : a = cell
  · subst hac
    rw [Function.update_same] at hv' ⊢
    cases hv'
    exact Finset.Subset.refl _
  · rw [Function.update_noteq hac] at hv' ⊢
    exact h a v hv'

/-- Single-mode behaviour of the candidate loop, as an inner induction:
under the running invariants, the loop preserves `ValSub` and the empty
queue, restores the entry state exactly when it fails, never returns a
list, and on success returns exactly its final state. -/
theorem tryVals_single_spec (fuel : Nat) (st0 : GState b) (cell : Addr b)
    (hq0 : st0.queue = []) (hcell : st0.val cell = none)
    (ih : ∀ s : GState b, s.queue = [] → ValSub s →
      (ValSub (recSolve fuel s false).2 ∧ (recSolve fuel s false).2.queue = []) ∧
      ((recSolve fuel s false).1 = PyRes.pyNone → (recSolve fuel s false).2 = s) ∧
      (∀ xs, (recSolve fuel s false).1 ≠ PyRes.pyList xs) ∧
      (∀ g, (recSolve fuel s false).1 = PyRes.pyGrid g → g = (recSolve fuel s false).2)) :
    ∀ (tvs : List Nat) (stC : GState b),
      stC.queue = [] → ValSub stC →
      (∀ a, a ≠ cell → stC.dom a = st0.dom a) →
      (∀ a, a ≠ cell → stC.val a = st0.val a) →
      (ValSub (tryVals (fun s => recSolve fuel s false) cell (st0.dom cell) false
          tvs stC []).2 ∧
        (tryVals (fun s => recSolve fuel s false) cell (st0.dom cell) false
          tvs stC []).2.queue = []) ∧
      ((tryVals (fun s => recSolve fuel s false) cell (st0.dom cell) false
          tvs stC []).1 = PyRes.pyNone →
        (tryVals (fun s => recSolve fuel s false) cell (st0.dom cell) false
          tvs stC []).2 = st0) ∧
      (∀ xs, (tryVals (fun s => recSolve fuel s false) cell (st0.dom cell) false
          tvs stC []).1 ≠ PyRes.pyList xs) ∧
      (∀ g, (tryVals (fun s => recSolve fuel s false) cell (st0.dom cell) false
          tvs stC []).1 = PyRes.pyGrid g →
        g = (tryVals (fun s => recSolve fuel s false) cell (st0.dom cell) false
          tvs stC []).2) := by
  intro tvs
  induction tvs with
  | nil =>
      intro stC hqC hvsC hdomC hvalC
      have hnil : tryVals (fun s => recSolve fuel s false) cell (st0.dom cell) false [] stC []
          = (PyRes.pyNone, ⟨Function.update stC.dom cell (st0.dom cell),
              Function.update stC.val cell none, stC.queue⟩) := rfl
      rw [hnil]
      refine ⟨⟨?_, hqC⟩, fun _ => ?_, fun xs h => by simp at h, fun g h => by simp at h⟩
      · intro a v hv
        have hv' : Function.update stC.val cell none a = some v := hv
        show Function.update stC.dom cell (st0.dom cell) a ⊆ {v}
        by_cases hac : a = cell
        · subst hac
          rw [Function.update_same] at hv'
          cases hv'
        · rw [Function.update_noteq hac] at hv' ⊢
          exact hvsC a v hv'
      · apply GState.ext
        · funext a
          show Function.update stC.dom cell (st0.dom cell) a = st0.dom a
          by_cases hac : a = cell
          · subst hac; rw [Function.update_same]
          · rw [Function.update_noteq hac]; exact hdomC a hac
        · funext a
          show Function.update stC.val cell none a = st0.val a
          by_cases hac : a = cell
          · subst hac; rw [Function.update_same, hcell]
          · rw [Function.update_noteq hac]; exact hvalC a hac
        · show stC.queue = st0.queue
          rw [hqC, hq0]
  | cons tv tvs ihl =>
      intro stC hqC hvsC hdomC hvalC
      have hvs1 : ValSub (fixArcConsistency (commitState stC cell tv)).1 :=
        ValSub_fixArc _ (ValSub_commit stC cell tv hvsC)
      have hq1 : (fixArcConsistency (commitState stC cell tv)).1.queue = [] :=
        fixArcConsistency_queue_empty _
      obtain ⟨⟨hvsr, hqr⟩, hnone, hnolist, hgrid⟩ :=
        ih (fixArcConsistency (commitState stC cell tv)).1 hq1 hvs1
      rw [tryVals_cons]
      cases hr : (recSolve fuel (fixArcConsistency (commitState stC cell tv)).1 false).1 with
      | pyNone =>
          simp only [hr]
          have hrestore := hnone hr
          have hqC' : (unfixArcConsistency
              (recSolve fuel (fixArcConsistency (commitState stC cell tv)).1 false).2
              (fixArcConsistency (commitState stC cell tv)).2).queue = [] := by
            show (recSolve fuel (fixArcConsistency (commitState stC cell tv)).1 false).2.queue
              = []
            exact hqr
          have hdomeq : ∀ a,
              (unfixArcConsistency
                (recSolve fuel (fixArcConsistency (commitState stC cell tv)).1 false).2
                (fixArcConsistency (commitState stC cell tv)).2).dom a
              = (commitState stC cell tv).dom a := by
            intro a
            show (recSolve fuel (fixArcConsistency (commitState stC cell tv)).1 false).2.dom a
                ∪ (fixArcConsistency (commitState stC cell tv)).2 a
              = (commitState stC cell tv).dom a
            rw [hrestore]
            exact fixArcConsistency_dom_union _ a
          have hvaleq : ∀ a,
              (unfixArcConsistency
                (recSolve fuel (fixArcConsistency (commitState stC cell tv)).1 false).2
                (fixArcConsistency (commitState stC cell tv)).2).val a
              = (commitState stC cell tv).val a := by
            intro a
            show (recSolve fuel (fixArcConsistency (commitState stC cell tv)).1 false).2.val a
              = (commitState stC cell tv).val a
            rw [hrestore, fixArcConsistency_val]
          refine ihl _ hqC' ?_ ?_ ?_
          · intro a v hv
            rw [hvaleq a] at hv
            have := ValSub_commit stC cell tv hvsC a v hv
            rw [← hdomeq a] at this
            exact this
          · intro a ha
            rw [hdomeq a]
            simp only [commitState, Function.update_noteq ha]
            exact hdomC a ha
          · intro a ha
            rw [hvaleq a]
            simp only [commitState, Function.update_noteq ha]
            exact hvalC a ha
      | pyGrid g =>
          simp only [hr, if_neg (by simp : ¬ (false = true))]
          refine ⟨⟨hvsr, hqr⟩, fun h => by simp at h, fun xs h => by simp at h, fun g' h => ?_⟩
          have : g' = g := by
            cases h; rfl
          rw [this]
          exact hgrid g hr
      | pyList xs => exact absurd hr (hnolist xs)

/-- Single-mode `_recSolve` from an empty-queue, `ValSub` state:
preserves both invariants, restores the entry state exactly on failure,
never returns a list, and on success the returned grid is the final
state itself. -/
theorem recSolve_single_spec : ∀ (fuel : Nat) (st : GState b),
    st.queue = [] → ValSub st →
    (ValSub (recSolve fuel st false).2 ∧ (recSolve fuel st false).2.queue = []) ∧
    ((recSolve fuel st false).1 = PyRes.pyNone → (recSolve fuel st false).2 = st) ∧
    (∀ xs, (recSolve fuel st false).1 ≠ PyRes.pyList xs) ∧
    (∀ g, (recSolve fuel st false).1 = PyRes.pyGrid g → g = (recSolve fuel st false).2) := by
  intro fuel
  induction fuel with
  | zero =>
      intro st hq hvs
      exact ⟨⟨hvs, hq⟩, fun _ => rfl, fun xs h => PyRes.noConfusion h,
        fun g h => PyRes.noConfusion h⟩
  | succ fuel ih =>
      intro st hq hvs
      cases hu : unsolvedCells st with
      | nil =>
          have hred : recSolve (fuel + 1) st false = (PyRes.pyGrid st, st) := by
            simp only [recSolve, hu]
          rw [hred]
          exact ⟨⟨hvs, hq⟩, fun h => PyRes.noConfusion h, fun xs h => PyRes.noConfusion h,
            fun g h => (PyRes.pyGrid.inj h).symm⟩
      | cons u us =>
          by_cases hc : (st.dom (mostConstrained st u us)).card = 0
          · have hred : recSolve (fuel + 1) st false = (PyRes.pyNone, st) := by
              simp only [recSolve, hu]
              rw [if_pos hc]
            rw [hred]
            exact ⟨⟨hvs, hq⟩, fun _ => rfl, fun xs h => PyRes.noConfusion h,
              fun g h => PyRes.noConfusion h⟩
          · rw [recSolve_step fuel st false u us hu hq hc]
            have hcellmem : mostConstrained st u us ∈ unsolvedCells st := by
              rw [hu]; exact mostConstrained_mem st us u
            have hcellnone : st.val (mostConstrained st u us) = none :=
              mem_unsolvedCells.mp hcellmem
            exact tryVals_single_spec fuel st (mostConstrained st u us) hq hcellnone ih
              (ascVals (st.dom (mostConstrained st u us))) st hq hvs
              (fun a _ => rfl) (fun a _ => rfl)

/-- Complete-mode behaviour of the candidate loop: regardless of what
the nested searches do, every frame resets its own cell at the end, so
the loop returns with the entry values restored exactly, domains only
shrunk, and an empty queue. -/
theorem tryVals_complete_spec (fuel : Nat) (st0 : GState b) (cell : Addr b)
    (hcell : st0.val cell = none)
    (ih : ∀ s : GState b, s.queue = [] →
      (recSolve fuel s true).2.val = s.val ∧
      (∀ a, (recSolve fuel s true).2.dom a ⊆ s.dom a) ∧
      (recSolve fuel s true).2.queue = []) :
    ∀ (tvs : List Nat) (stC : GState b) (ret : List (PyRes b)),
      (∀ tv ∈ tvs, tv ∈ st0.dom cell) →
      stC.queue = [] →
      (∀ a, a ≠ cell → stC.dom a ⊆ st0.dom a) →
      (∀ a, a ≠ cell → stC.val a = st0.val a) →
      (tryVals (fun s => recSolve fuel s true) cell (st0.dom cell) true
          tvs stC ret).2.val = st0.val ∧
      (∀ a, (tryVals (fun s => recSolve fuel s true) cell (st0.dom cell) true
          tvs stC ret).2.dom a ⊆ st0.dom a) ∧
      (tryVals (fun s => recSolve fuel s true) cell (st0.dom cell) true
          tvs stC ret).2.queue = [] := by
  intro tvs
  induction tvs with
  | nil =>
      intro stC ret _ hqC hdomC hvalC
      have hnil : tryVals (fun s => recSolve fuel s true) cell (st0.dom cell) true [] stC ret
          = (PyRes.pyList ret, ⟨Function.update stC.dom cell (st0.dom cell),
              Function.update stC.val cell none, stC.queue⟩) := rfl
      rw [hnil]
      refine ⟨?_, ?_, hqC⟩
      · funext a
        show Function.update stC.val cell none a = st0.val a
        by_cases hac : a = cell
        · subst hac; rw [Function.update_same, hcell]
        · rw [Function.update_noteq hac]; exact hvalC a hac
      · intro a
        show Function.update stC.dom cell (st0.dom cell) a ⊆ st0.dom a
        by_cases hac : a = cell
        · subst hac; rw [Function.update_same]
        · rw [Function.update_noteq hac]; exact hdomC a hac
  | cons tv tvs ihl =>
      intro stC ret htvs hqC hdomC hvalC
      have htv : tv ∈ st0.dom cell := htvs tv (List.mem_cons_self tv tvs)
      have htvs' : ∀ x ∈ tvs, x ∈ st0.dom cell :=
        fun x hx => htvs x (List.mem_cons.mpr (Or.inr hx))
      have hq1 : (fixArcConsistency (commitState stC cell tv)).1.queue = [] :=
        fixArcConsistency_queue_empty _
      obtain ⟨hval2, hdom2, hq2⟩ := ih (fixArcConsistency (commitState stC cell tv)).1 hq1
      -- the committed state's domains are below the entry domains
      have hdom1 : ∀ a, (commitState stC cell tv).dom a ⊆ st0.dom a := by
        intro a
        show Function.update stC.dom cell {tv} a ⊆ st0.dom a
        by_cases hac : a = cell
        · subst hac
          rw [Function.update_same]
          exact Finset.singleton_subset_iff.mpr htv
        · rw [Function.update_noteq hac]
          exact hdomC a hac
      have hval1 : ∀ a, a ≠ cell → (commitState stC cell tv).val a = st0.val a := by
        intro a hac
        show Function.update stC.val cell (some tv) a = st0.val a
        rw [Function.update_noteq hac]
        exact hvalC a hac
      have hfixsub : ∀ a, (fixArcConsistency (commitState stC cell tv)).1.dom a
          ⊆ (commitState stC cell tv).dom a := fun a => fixArcConsistency_dom_subset _ a
      have hfixval : (fixArcConsistency (commitState stC cell tv)).1.val
          = (commitState stC cell tv).val := fixArcConsistency_val _
      rw [tryVals_cons]
      cases hr : (recSolve fuel (fixArcConsistency (commitState stC cell tv)).1 true).1 with
      | pyNone =>
          simp only [hr]
          refine ihl _ ret htvs' ?_ ?_ ?_
          · show (recSolve fuel (fixArcConsistency (commitState stC cell tv)).1 true).2.queue
              = []
            exact hq2
          · intro a ha
            show (recSolve fuel (fixArcConsistency (commitState stC cell tv)).1 true).2.dom a
                ∪ (fixArcConsistency (commitState stC cell tv)).2 a ⊆ st0.dom a
            have h1 : (recSolve fuel (fixArcConsistency (commitState stC cell tv)).1
                true).2.dom a ⊆ (commitState stC cell tv).dom a :=
              (hdom2 a).trans (hfixsub a)
            have h2 : (fixArcConsistency (commitState stC cell tv)).2 a
                ⊆ (commitState stC cell tv).dom a := fixArcConsistency_diff_subset _ a
            exact Finset.union_subset (h1.trans (hdom1 a)) (h2.trans (hdom1 a))
          · intro a ha
            show (recSolve fuel (fixArcConsistency (commitState stC cell tv)).1 true).2.val a
              = st0.val a
            rw [hval2, hfixval]
            exact hval1 a ha
      | pyGrid g =>
          simp only [hr, if_pos rfl]
          refine ihl _ (ret ++ [PyRes.pyGrid g]) htvs' hq2 ?_ ?_
          · intro a ha
            exact ((hdom2 a).trans (hfixsub a)).trans (hdom1 a)
          · intro a ha
            rw [hval2, hfixval]
            exact hval1 a ha
      | pyList xs =>
          simp only [hr, if_pos rfl]
          refine ihl _ (ret ++ [PyRes.pyList xs]) htvs' hq2 ?_ ?_
          · intro a ha
            exact ((hdom2 a).trans (hfixsub a)).trans (hdom1 a)
          · intro a ha
            rw [hval2, hfixval]
            exact hval1 a ha

/-- Complete-mode `_recSolve` from an empty-queue state: whatever it
returns, its final state carries exactly the entry values, domains that
only shrank, and an empty queue (every frame resets its chosen cell and
never rolls back the domain removals of successful candidates). -/
theorem recSolve_complete_spec : ∀ (fuel : Nat) (st : GState b), st.queue = [] →
    (recSolve fuel st true).2.val = st.val ∧
    (∀ a, (recSolve fuel st true).2.dom a ⊆ st.dom a) ∧
    (recSolve fuel st true).2.queue = [] := by
  intro fuel
  induction fuel with
  | zero =>
      intro st hq
      exact ⟨rfl, fun a => Finset.Subset.refl _, hq⟩
  | succ fuel ih =>
      intro st hq
      cases hu : unsolvedCells st with
      | nil =>
          have hred : recSolve (fuel + 1) st true = (PyRes.pyGrid st, st) := by
            simp only [recSolve, hu]
          rw [hred]
          exact ⟨rfl, fun a => Finset.Subset.refl _, hq⟩
      | cons u us =>
          by_cases hc : (st.dom (mostConstrained st u us)).card = 0
          · have hred : recSolve (fuel + 1) st true = (PyRes.pyNone, st) := by
              simp only [recSolve, hu]
              rw [if_pos hc]
            rw [hred]
            exact ⟨rfl, fun a => Finset.Subset.refl _, hq⟩
          · rw [recSolve_step fuel st true u us hu hq hc]
            have hcellmem : mostConstrained st u us ∈ unsolvedCells st := by
              rw [hu]; exact mostConstrained_mem st us u
            have hcellnone : st.val (mostConstrained st u us) = none :=
              mem_unsolvedCells.mp hcellmem
            exact tryVals_complete_spec fuel st (mostConstrained st u us) hcellnone ih
              (ascVals (st.dom (mostConstrained st u us))) st []
              (fun tv htv => mem_ascVals.mp htv) hq
              (fun a _ => Finset.Subset.refl _) (fun a _ => rfl)

theorem solve_complete_val (st : GState b) : (solve st true).2.val = st.val := by
  unfold solve
  rw [(recSolve_complete_spec (b * b + 1) _ (fixArcConsistency_queue_empty st)).1]
  exact fixArcConsistency_val st

theorem solve_complete_dom (st : GState b) (a : Addr b) :
    (solve st true).2.dom a ⊆ st.dom a := by
  unfold solve
  exact ((recSolve_complete_spec (b * b + 1) _
    (fixArcConsistency_queue_empty st)).2.1 a).trans (fixArcConsistency_dom_subset st a)

theorem ValSub_solve (st : GState b) (complete : Bool) (h : ValSub st) :
    ValSub (solve st complete).2 := by
  have h1 : ValSub (fixArcConsistency st).1 := ValSub_fixArc st h
  have hq1 : (fixArcConsistency st).1.queue = [] := fixArcConsistency_queue_empty st
  cases complete with
  | false => exact (recSolve_single_spec (b * b + 1) _ hq1 h1).1.1
  | true =>
      intro a v hv
      rw [solve_complete_val] at hv
      exact (solve_complete_dom st a).trans (h a v hv)

theorem ValSub_clearPair (st : GState b) (p : Addr b) (h : ValSub st) :
    ValSub (clearPairState st p) := by
  intro a v hv
  have hv' : Function.update (Function.update st.val p none) (reflectAddr p) none a
      = some v := hv
  show Function.update (Function.update st.dom p (Finset.range b)) (reflectAddr p)
      (Finset.range b) a ⊆ {v}
  by_cases h2 : a = reflectAddr p
  · subst h2; rw [Function.update_same] at hv'; cases hv'
  · rw [Function.update_noteq h2] at hv' ⊢
    by_cases h1 : a = p
    · subst h1; rw [Function.update_same] at hv'; cases hv'
    · rw [Function.update_noteq h1] at hv' ⊢
      exact h a v hv'

theorem ValSub_complicateRun (st : GState b) (p : Addr b) (h : ValSub st) :
    ValSub (complicateRun st p).2 := by
  have hclear : ValSub (clearPairState st p) := ValSub_clearPair st p h
  have henq : ValSub (enqueueSolved (clearPairState st p)) := hclear
  intro a v hv
  have hv' : (solve (fixArcConsistency (enqueueSolved (clearPairState st p))).1 true).2.val a
      = some v := hv
  rw [solve_complete_val, fixArcConsistency_val] at hv'
  have hbound : (enqueueSolved (clearPairState st p)).dom a ⊆ {v} := henq a v hv'
  show (solve (fixArcConsistency (enqueueSolved (clearPairState st p))).1 true).2.dom a
      ∪ (fixArcConsistency (enqueueSolved (clearPairState st p))).2 a ⊆ {v}
  refine Finset.union_subset ?_ ?_
  · exact ((solve_complete_dom _ a).trans (fixArcConsistency_dom_subset _ a)).trans hbound
  · exact (fixArcConsistency_diff_subset _ a).trans hbound

/-- Grid states reachable through the public operations of the engine:
grids populated by insertion (`initialGrid`), propagation passes,
`solve` in either mode, the generator's seeding placements, and the body
of the generator's complicate step. -/
inductive Reachable (b : Nat) : GState b → Prop where
  | init (g : Addr b → Option Nat) : Reachable b (initialGrid b g)
  | fixStep {st : GState b} : Reachable b st → Reachable b (fixArcConsistency st).1
  | solveStep {st : GState b} (complete : Bool) : Reachable b st →
      Reachable b (solve st complete).2
  | seedStep {st : GState b} (a : Addr b) (v : Nat) : Reachable b st →
      Reachable b ⟨Function.update st.dom a {v}, Function.update st.val a (some v),
        st.queue ++ [a]⟩
  | complicateStep {st : GState b} (p : Addr b) : Reachable b st →
      Reachable b (complicateRun st p).2

/-- C7 (amended): in every grid state reachable through the public
operations, a cell whose `value` is set has its domain CONTAINED in the
singleton of that value (the claimed equality fails: propagation can
empty a committed cell's domain while the value stays set). -/
theorem C7_value_implies_domain_subset (b : Nat) (st : GState b) (h : Reachable b st) :
    ∀ a v, st.val a = some v → st.dom a ⊆ {v} := by
  induction h with
  | init g =>
      intro a v hv
      have hv' : g a = some v := hv
      show (match g a with | some w => {w} | none => Finset.range b) ⊆ {v}
      rw [hv']
  | fixStep _ ih => exact ValSub_fixArc _ ih
  | solveStep complete _ ih => exact ValSub_solve _ complete ih
  | @seedStep st' a v _ ih =>
      intro c w hw
      have hw' : Function.update st'.val a (some v) c = some w := hw
      show Function.update st'.dom a {v} c ⊆ {w}
      by_cases hac : c = a
      · subst hac
        rw [Function.update_same] at hw' ⊢
        cases hw'
        exact Finset.Subset.refl _
      · rw [Function.update_noteq hac] at hw' ⊢
        exact ih c w hw'
  | complicateStep p _ ih => exact ValSub_complicateRun _ p ih

/-- C7 counterexample: a reachable state (two conflicting givens, then
one propagation pass) in which a cell has `value = 0` but an empty
domain, refuting the claimed `domain == {value}`. -/
theorem C7_counterexample :
    Reachable 4 stBad ∧ stBad.val ((0 : Fin 4), (0 : Fin 4)) = some 0 ∧
    stBad.dom ((0 : Fin 4), (0 : Fin 4)) ≠ {0} :=
  ⟨Reachable.fixStep (Reachable.init gBad), by decide, by decide⟩

theorem C7_witness :
    Reachable 4 (initialGrid 4 gBad) ∧
    (∀ a v, (initialGrid 4 gBad).val a = some v → (initialGrid 4 gBad).dom a ⊆ {v}) :=
  ⟨Reachable.init gBad,
   C7_value_implies_domain_subset 4 (initialGrid 4 gBad) (Reachable.init gBad)⟩

/-- Every committed value has been propagated: it no longer appears in
any peer's domain. -/
def ValuesPropagated (st : GState b) : Prop :=
  ∀ a v, st.val a = some v → ∀ c, isPeer b a c → v ∉ st.dom c

/-- No two peer cells hold the same committed value. -/
def PairwiseDistinct (st : GState b) : Prop :=
  ∀ a c v w, isPeer b a c → st.val a = some v → st.val c = some w → v ≠ w

/-- All committed values are in `[0, base)`. -/
def ValuesInRange (st : GState b) : Prop :=
  ∀ a v, st.val a = some v → v < b

/-- All domains are within `[0, base)`. -/
def DomsInRange (st : GState b) : Prop :=
  ∀ a, st.dom a ⊆ Finset.range b

instance (st : GState b) : Decidable (DomsInRange st) :=
  inferInstanceAs (Decidable (∀ a, st.dom a ⊆ Finset.range b))

/-- Every cell holds a committed value. -/
def AllValued (st : GState b) : Prop :=
  ∀ a, st.val a ≠ none

/-- The addresses of row `i`. -/
def rowAddrs (b : Nat) (i : Fin b) : Finset (Addr b) :=
  Finset.univ.filter (fun a => a.1 = i)

/-- The addresses of column `i`. -/
def colAddrs (b : Nat) (i : Fin b) : Finset (Addr b) :=
  Finset.univ.filter (fun a => a.2 = i)

/-- The addresses of block `j`. -/
def blockAddrs (b : Nat) (j : Nat) : Finset (Addr b) :=
  Finset.univ.filter (fun a => blockIdx b a = j)

/-- The group `G` holds each value `v < b` exactly once. -/
def exactlyOnce (st : GState b) (G : Finset (Addr b)) : Prop :=
  ∀ v, v < b → (G.filter (fun a => st.val a = some v)).card = 1

/-- Every row, column and block contains each value in `[0, base)`
exactly once. -/
def GridValid (b : Nat) (st : GState b) : Prop :=
  (∀ i : Fin b, exactlyOnce st (rowAddrs b i)) ∧
  (∀ i : Fin b, exactlyOnce st (colAddrs b i)) ∧
  (∀ j, j < b → exactlyOnce st (blockAddrs b j))

/-- Extract a returned grid (with a default for the other shapes). -/
def gridOf (r : PyRes b) (dflt : GState b) : GState b :=
  match r with
  | PyRes.pyGrid g => g
  | _ => dflt

/-- The all-zeros, all-given base-4 grid: every cell carries the given
value `0`. -/
def stZ : GState 4 := initialGrid 4 (fun _ => some 0)

/-- The empty base-4 grid (no givens). -/
def stE : GState 4 := initialGrid 4 (fun _ => none)

theorem isPeer_symm {a c : Addr b} (h : isPeer b a c) : isPeer b c a := by
  obtain ⟨hne, hdis⟩ := h
  refine ⟨fun he => hne he.symm, ?_⟩
  rcases hdis with h1 | h1 | h1
  · exact Or.inl h1.symm
  · exact Or.inr (Or.inl h1.symm)
  · exact Or.inr (Or.inr h1.symm)

theorem filter_le_length (m s : Nat) :
    ((List.range m).filter (fun i => decide (i ≤ s))).length = min m (s + 1) := by
  induction m with
  | zero => simp
  | succ m ih =>
      rw [List.range_succ, List.filter_append, List.length_append, ih]
      by_cases h : m ≤ s
      · have : (List.filter (fun i => decide (i ≤ s)) [m]).length = 1 := by
          simp [h]
        rw [this]
        omega
      · have : (List.filter (fun i => decide (i ≤ s)) [m]).length = 0 := by
          simp [h]
        rw [this]
        omega

theorem intSqrt_mul_self (k : Nat) : intSqrt (k * k) = k := by
  unfold intSqrt
  have hcong : (List.range (k * k + 1)).filter (fun i => decide (i * i ≤ k * k))
      = (List.range (k * k + 1)).filter (fun i => decide (i ≤ k)) := by
    apply List.filter_congr
    intro x _
    simp only [decide_eq_decide]
    constructor
    · intro h
      by_contra hgt
      have : k < x := Nat.lt_of_not_le hgt
      have : k * k < x * x := Nat.mul_lt_mul_of_lt_of_le this (Nat.le_of_lt this) (by omega)
      omega
    · intro h
      exact Nat.mul_le_mul h h
  rw [hcong, filter_le_length]
  have hk : k ≤ k * k := by
    cases k with
    | zero => omega
    | succ n => calc n + 1 = (n + 1) * 1 := by ring
                _ ≤ (n + 1) * (n + 1) := Nat.mul_le_mul_left _ (by omega)
  omega

theorem card_div_filter (k q : Nat) (hk : 0 < k) (hq : q < k) :
    (Finset.univ.filter (fun r : Fin (k * k) => r.val / k = q)).card = k := by
  have hbij := Finset.card_bij'
    (i := fun (r : Fin (k * k)) (_ : r ∈ Finset.univ.filter
      (fun r : Fin (k * k) => r.val / k = q)) => (⟨r.val % k, Nat.mod_lt _ hk⟩ : Fin k))
    (j := fun (i : Fin k) (_ : i ∈ (Finset.univ : Finset (Fin k))) =>
      (⟨q * k + i.val, by
        have h1 : q + 1 ≤ k := hq
        calc q * k + i.val < q * k + k := by omega
        _ = (q + 1) * k := by ring
        _ ≤ k * k := Nat.mul_le_mul_right k h1⟩ : Fin (k * k)))
    ?_ ?_ ?_ ?_
  · rw [hbij, Finset.card_univ, Fintype.card_fin]
  · intro a _
    exact Finset.mem_univ _
  · intro i _
    rw [Finset.mem_filter]
    refine ⟨Finset.mem_univ _, ?_⟩
    show (q * k + i.val) / k = q
    rw [Nat.mul_comm q k, Nat.mul_add_div hk]
    have : i.val / k = 0 := Nat.div_eq_of_lt i.isLt
    omega
  · intro a ha
    rw [Finset.mem_filter] at ha
    apply Fin.ext
    show q * k + a.val % k = a.val
    have := ha.2
    conv_rhs => rw [← Nat.div_add_mod a.val k]
    rw [this]
    ring
  · intro i _
    apply Fin.ext
    show (q * k + i.val) % k = i.val
    rw [Nat.mul_comm q k, Nat.mul_add_mod]
    exact Nat.mod_eq_of_lt i.isLt

theorem card_rowAddrs (b : Nat) (i : Fin b) : (rowAddrs b i).card = b := by
  have hbij := Finset.card_bij'
    (i := fun (a : Addr b) (_ : a ∈ rowAddrs b i) => a.2)
    (j := fun (c : Fin b) (_ : c ∈ (Finset.univ : Finset (Fin b))) => ((i, c) : Addr b))
    ?_ ?_ ?_ ?_
  · rw [hbij, Finset.card_univ, Fintype.card_fin]
  · intro a _
    exact Finset.mem_univ _
  · intro c _
    rw [rowAddrs, Finset.mem_filter]
    exact ⟨Finset.mem_univ _, rfl⟩
  · intro a ha
    rw [rowAddrs, Finset.mem_filter] at ha
    obtain ⟨a1, a2⟩ := a
    have h1 : a1 = i := ha.2
    subst h1
    rfl
  · intro c _
    rfl

theorem card_colAddrs (b : Nat) (i : Fin b) : (colAddrs b i).card = b := by
  have hbij := Finset.card_bij'
    (i := fun (a : Addr b) (_ : a ∈ colAddrs b i) => a.1)
    (j := fun (c : Fin b) (_ : c ∈ (Finset.univ : Finset (Fin b))) => ((c, i) : Addr b))
    ?_ ?_ ?_ ?_
  · rw [hbij, Finset.card_univ, Fintype.card_fin]
  · intro a _
    exact Finset.mem_univ _
  · intro c _
    rw [colAddrs, Finset.mem_filter]
    exact ⟨Finset.mem_univ _, rfl⟩
  · intro a ha
    rw [colAddrs, Finset.mem_filter] at ha
    obtain ⟨a1, a2⟩ := a
    have h1 : a2 = i := ha.2
    subst h1
    rfl
  · intro c _
    rfl

theorem blockIdx_eq_iff (k : Nat) (hk : 0 < k) (j : Nat) (hj : j < k * k)
    (a : Addr (k * k)) :
    blockIdx (k * k) a = j ↔ (a.1.val / k = j / k ∧ a.2.val / k = j % k) := by
  unfold blockIdx
  rw [intSqrt_mul_self]
  have h1 : a.1.val / k < k := (Nat.div_lt_iff_lt_mul hk).mpr a.1.isLt
  have h2 : a.2.val / k < k := (Nat.div_lt_iff_lt_mul hk).mpr a.2.isLt
  constructor
  · intro h
    have hdiv : (k * (a.1.val / k) + a.2.val / k) / k = a.1.val / k := by
      rw [Nat.mul_add_div hk]
      have : (a.2.val / k) / k = 0 := Nat.div_eq_of_lt h2
      omega
    have hmod : (k * (a.1.val / k) + a.2.val / k) % k = a.2.val / k := by
      rw [Nat.mul_add_mod]
      exact Nat.mod_eq_of_lt h2
    rw [← h, hdiv, hmod]
    exact ⟨rfl, rfl⟩
  · intro ⟨hr, hc⟩
    rw [hr, hc]
    exact Nat.div_add_mod j k

theorem card_blockAddrs (k : Nat) (hk : 0 < k) (j : Nat) (hj : j < k * k) :
    (blockAddrs (k * k) j).card = k * k := by
  have hcong : blockAddrs (k * k) j = Finset.univ.filter
      (fun a : Addr (k * k) => a.1.val / k = j / k ∧ a.2.val / k = j % k) := by
    apply Finset.filter_congr
    intro a _
    exact blockIdx_eq_iff k hk j hj a
  rw [hcong, ← Finset.univ_product_univ,
    Finset.filter_product (fun r : Fin (k * k) => r.val / k = j / k)
      (fun c : Fin (k * k) => c.val / k = j % k)]
  rw [Finset.card_product]
  rw [card_div_filter k (j / k) hk ((Nat.div_lt_iff_lt_mul hk).mpr hj),
    card_div_filter k (j % k) hk (Nat.mod_lt _ hk)]

/-- Counting argument: a group of `base` pairwise-peer cells, all
committed with pairwise-distinct in-range values, holds each value in
`[0, base)` exactly once. -/
theorem exactlyOnce_of_group (st : GState b) (G : Finset (Addr b)) (hcard : G.card = b)
    (hpeer : ∀ a c, a ∈ G → c ∈ G → a ≠ c → isPeer b a c)
    (hall : AllValued st) (hPD : PairwiseDistinct st) (hVR : ValuesInRange st) :
    exactlyOnce st G := by
  intro v hv
  have hsome : ∀ a : Addr b, st.val a = some ((st.val a).getD 0) := by
    intro a
    cases hva : st.val a with
    | none => exact absurd hva (hall a)
    | some w => rfl
  have hinj : Set.InjOn (fun a => (st.val a).getD 0) ↑G := by
    intro a ha c hc heq
    by_contra hne
    have hp := hpeer a c ha hc hne
    exact hPD a c _ _ hp (hsome a) (hsome c) (by simpa using heq)
  have hcardim : (G.image (fun a => (st.val a).getD 0)).card = b := by
    rw [Finset.card_image_of_injOn hinj, hcard]
  have hsub : G.image (fun a => (st.val a).getD 0) ⊆ Finset.range b := by
    intro w hw
    obtain ⟨a, _, rfl⟩ := Finset.mem_image.mp hw
    exact Finset.mem_range.mpr (hVR a _ (hsome a))
  have heq : G.image (fun a => (st.val a).getD 0) = Finset.range b :=
    Finset.eq_of_subset_of_card_le hsub (by rw [hcardim, Finset.card_range])
  have hvmem : v ∈ G.image (fun a => (st.val a).getD 0) := by
    rw [heq]; exact Finset.mem_range.mpr hv
  obtain ⟨a0, ha0, hva0⟩ := Finset.mem_image.mp hvmem
  rw [Finset.card_eq_one]
  refine ⟨a0, ?_⟩
  ext x
  rw [Finset.mem_filter, Finset.mem_singleton]
  constructor
  · intro ⟨hxG, hxv⟩
    apply hinj hxG ha0
    show (st.val x).getD 0 = (st.val a0).getD 0
    rw [hxv, hva0]
    rfl
  · intro hx
    subst hx
    refine ⟨ha0, ?_⟩
    rw [hsome x, hva0]

theorem length_filter_lt {α : Type _} (p : α → Bool) (x : α) :
    ∀ (l : List α), x ∈ l → p x = false → (l.filter p).length < l.length := by
  intro l
  induction l with
  | nil => intro hx; cases hx
  | cons y ys ih =>
      intro hx hpx
      rcases List.mem_cons.mp hx with rfl | hmem
      · rw [List.filter_cons, hpx]
        have := List.length_filter_le p ys
        simp only [Bool.false_eq_true, if_false, List.length_cons]
        omega
      · rw [List.filter_cons]
        cases hpy : p y
        · have := ih hmem hpx
          simp only [Bool.false_eq_true, if_false, List.length_cons]
          omega
        · have := ih hmem hpx
          simp only [if_true, List.length_cons]
          omega

/-- Committing a value to an unsolved cell strictly decreases the
number of unsolved cells. -/
theorem unsolvedCells_commit_length (st0 : GState b) (cell : Addr b) (tv : Nat)
    (hcell : st0.val cell = none) (st' : GState b)
    (hval : st'.val = Function.update st0.val cell (some tv)) :
    (unsolvedCells st').length < (unsolvedCells st0).length := by
  have hchar : unsolvedCells st' = (unsolvedCells st0).filter (fun a => decide (¬ a = cell)) := by
    unfold unsolvedCells
    rw [hval, List.filter_filter]
    apply List.filter_congr
    intro a _
    by_cases hac : a = cell
    · subst hac
      rw [Function.update_same]
      simp
    · rw [Function.update_noteq hac]
      simp [hac]
  rw [hchar]
  exact length_filter_lt _ cell _ (mem_unsolvedCells.mpr hcell) (by simp)

/-- After committing a candidate to the chosen cell of a loop state and
running the propagation pass, all the search invariants hold of the
resulting state. -/
theorem commit_fix_inv (st0 : GState b) (cell : Addr b) (tv : Nat) (stC : GState b)
    (hVC0 : ValuesPropagated st0) (hPD0 : PairwiseDistinct st0)
    (hVR0 : ValuesInRange st0) (hDS0 : DomsInRange st0) (hcell : st0.val cell = none)
    (htv : tv ∈ st0.dom cell)
    (hqC : stC.queue = []) (hvsC : ValSub stC)
    (hdomC : ∀ a, a ≠ cell → stC.dom a = st0.dom a)
    (hvalC : ∀ a, a ≠ cell → stC.val a = st0.val a) :
    (fixArcConsistency (commitState stC cell tv)).1.queue = [] ∧
    ValSub (fixArcConsistency (commitState stC cell tv)).1 ∧
    ValuesPropagated (fixArcConsistency (commitState stC cell tv)).1 ∧
    PairwiseDistinct (fixArcConsistency (commitState stC cell tv)).1 ∧
    ValuesInRange (fixArcConsistency (commitState stC cell tv)).1 ∧
    DomsInRange (fixArcConsistency (commitState stC cell tv)).1 ∧
    (fixArcConsistency (commitState stC cell tv)).1.val
      = Function.update st0.val cell (some tv) := by
  have hvaleq : (fixArcConsistency (commitState stC cell tv)).1.val
      = Function.update st0.val cell (some tv) := by
    rw [fixArcConsistency_val]
    funext a
    show Function.update stC.val cell (some tv) a = Function.update st0.val cell (some tv) a
    by_cases hac : a = cell
    · subst hac; rw [Function.update_same, Function.update_same]
    · rw [Function.update_noteq hac, Function.update_noteq hac]
      exact hvalC a hac
  have hdomsub : ∀ a, (fixArcConsistency (commitState stC cell tv)).1.dom a
      ⊆ (commitState stC cell tv).dom a := fun a => fixArcConsistency_dom_subset _ a
  have hcommitdom : ∀ a, (commitState stC cell tv).dom a
      = if a = cell then {tv} else st0.dom a := by
    intro a
    show Function.update stC.dom cell {tv} a = _
    by_cases hac : a = cell
    · subst hac; rw [Function.update_same, if_pos rfl]
    · rw [Function.update_noteq hac, if_neg hac]
      exact hdomC a hac
  refine ⟨fixArcConsistency_queue_empty _, ValSub_fixArc _ (ValSub_commit stC cell tv hvsC),
    ?_, ?_, ?_, ?_, hvaleq⟩
  · -- ValuesPropagated
    intro a v hv c hpeer
    rw [hvaleq] at hv
    by_cases hac : a = cell
    · rw [hac] at hv hpeer
      rw [Function.update_same] at hv
      cases hv
      have hmemq : cell ∈ (commitState stC cell tv).queue := by
        show cell ∈ stC.queue ++ [cell]
        rw [hqC]
        exact List.mem_singleton.mpr rfl
      have hdsub : (commitState stC cell tv).dom cell ⊆ {tv} := by
        rw [hcommitdom, if_pos rfl]
      exact fixGo_kill (mu (commitState stC cell tv)) (commitState stC cell tv)
        (fun _ => ∅) cell tv hmemq hdsub (fixArcConsistency_queue_empty _) c hpeer
    · rw [Function.update_noteq hac] at hv
      intro hmem
      have hmem2 : v ∈ (commitState stC cell tv).dom c := hdomsub c hmem
      rw [hcommitdom c] at hmem2
      by_cases hcc : c = cell
      · rw [if_pos hcc] at hmem2
        have hvtv : v = tv := Finset.mem_singleton.mp hmem2
        rw [hcc] at hpeer
        have : v ∉ st0.dom cell := hVC0 a v hv cell hpeer
        exact this (hvtv ▸ htv)
      · rw [if_neg hcc] at hmem2
        exact hVC0 a v hv c hpeer hmem2
  · -- PairwiseDistinct
    intro a c v w hpeer hva hvc
    rw [hvaleq] at hva hvc
    by_cases hac : a = cell
    · rw [hac] at hva hpeer
      rw [Function.update_same] at hva
      cases hva
      have hcc : ¬ c = cell := hpeer.1
      rw [Function.update_noteq hcc] at hvc
      have : w ∉ st0.dom cell := hVC0 c w hvc cell (isPeer_symm hpeer)
      intro hvw
      exact this (hvw ▸ htv)
    · rw [Function.update_noteq hac] at hva
      by_cases hcc : c = cell
      · rw [hcc] at hvc hpeer
        rw [Function.update_same] at hvc
        cases hvc
        have : v ∉ st0.dom cell := hVC0 a v hva cell hpeer
        intro hvw
        exact this (hvw ▸ htv)
      · rw [Function.update_noteq hcc] at hvc
        exact hPD0 a c v w hpeer hva hvc
  · -- ValuesInRange
    intro a v hv
    rw [hvaleq] at hv
    by_cases hac : a = cell
    · rw [hac, Function.update_same] at hv
      cases hv
      exact Finset.mem_range.mp (hDS0 cell htv)
    · rw [Function.update_noteq hac] at hv
      exact hVR0 a v hv
  · -- DomsInRange
    intro a
    refine (hdomsub a).trans ?_
    rw [hcommitdom a]
    by_cases hac : a = cell
    · rw [if_pos hac]
      intro x hx
      rw [Finset.mem_singleton.mp hx]
      exact hDS0 cell htv
    · rw [if_neg hac]
      exact hDS0 a

theorem valid_of_filled (k b : Nat) (hb : b = k * k) (st : GState b)
    (hall : AllValued st) (hPD : PairwiseDistinct st) (hVR : ValuesInRange st) :
    GridValid b st := by
  subst hb
  refine ⟨?_, ?_, ?_⟩
  · intro i
    have hk : 0 < k := by
      rcases Nat.eq_zero_or_pos k with h | h
      · subst h; exact absurd i.isLt (by omega)
      · exact h
    refine exactlyOnce_of_group st _ (card_rowAddrs _ i) ?_ hall hPD hVR
    intro a c ha hc hne
    rw [rowAddrs, Finset.mem_filter] at ha hc
    exact ⟨fun h => hne h.symm, Or.inl (hc.2.trans ha.2.symm)⟩
  · intro i
    refine exactlyOnce_of_group st _ (card_colAddrs _ i) ?_ hall hPD hVR
    intro a c ha hc hne
    rw [colAddrs, Finset.mem_filter] at ha hc
    exact ⟨fun h => hne h.symm, Or.inr (Or.inl (hc.2.trans ha.2.symm))⟩
  · intro j hj
    have hk : 0 < k := by
      rcases Nat.eq_zero_or_pos k with h | h
      · subst h; omega
      · exact h
    refine exactlyOnce_of_group st _ (card_blockAddrs k hk j hj) ?_ hall hPD hVR
    intro a c ha hc hne
    rw [blockAddrs, Finset.mem_filter] at ha hc
    exact ⟨fun h => hne h.symm, Or.inr (Or.inr (hc.2.trans ha.2.symm))⟩

/-- Soundness of the candidate loop in single mode: whenever it returns
a grid, that grid is its final state, fully valued, with peer-distinct
in-range values. -/
theorem tryVals_single_sound (fuel : Nat) (st0 : GState b) (cell : Addr b)
    (hq0 : st0.queue = []) (hvs0 : ValSub st0)
    (hVC0 : ValuesPropagated st0) (hPD0 : PairwiseDistinct st0)
    (hVR0 : ValuesInRange st0) (hDS0 : DomsInRange st0)
    (hcell : st0.val cell = none)
    (hcount : (unsolvedCells st0).length ≤ fuel)
    (ihO : ∀ s : GState b, s.queue = [] → ValSub s → ValuesPropagated s →
      PairwiseDistinct s → ValuesInRange s → DomsInRange s →
      (unsolvedCells s).length < fuel →
      ∀ g st', recSolve fuel s false = (PyRes.pyGrid g, st') →
        g = st' ∧ AllValued st' ∧ PairwiseDistinct st' ∧ ValuesInRange st') :
    ∀ (tvs : List Nat) (stC : GState b),
      (∀ tv ∈ tvs, tv ∈ st0.dom cell) →
      stC.queue = [] → ValSub stC →
      (∀ a, a ≠ cell → stC.dom a = st0.dom a) →
      (∀ a, a ≠ cell → stC.val a = st0.val a) →
      ∀ g st', tryVals (fun s => recSolve fuel s false) cell (st0.dom cell) false tvs stC []
          = (PyRes.pyGrid g, st') →
        g = st' ∧ AllValued st' ∧ PairwiseDistinct st' ∧ ValuesInRange st' := by
  intro tvs
  induction tvs with
  | nil =>
      intro stC _ _ _ _ _ g st' h
      have h1 : PyRes.pyNone = PyRes.pyGrid g := congrArg Prod.fst h
      exact PyRes.noConfusion h1
  | cons tv tvs ihl =>
      intro stC htvs hqC hvsC hdomC hvalC g st' h
      have htv : tv ∈ st0.dom cell := htvs tv (List.mem_cons_self tv tvs)
      have htvs' : ∀ x ∈ tvs, x ∈ st0.dom cell :=
        fun x hx => htvs x (List.mem_cons.mpr (Or.inr hx))
      obtain ⟨hq1, hvs1, hVC1, hPD1, hVR1, hDS1, hval1⟩ :=
        commit_fix_inv st0 cell tv stC hVC0 hPD0 hVR0 hDS0 hcell htv hqC hvsC hdomC hvalC
      rw [tryVals_cons] at h
      cases hr : (recSolve fuel (fixArcConsistency (commitState stC cell tv)).1 false).1 with
      | pyNone =>
          rw [hr] at h
          have hrestore : (recSolve fuel
              (fixArcConsistency (commitState stC cell tv)).1 false).2
              = (fixArcConsistency (commitState stC cell tv)).1 :=
            (recSolve_single_spec fuel _ hq1 hvs1).2.1 hr
          refine ihl _ htvs' ?_ ?_ ?_ ?_ g st' h
          · show (recSolve fuel (fixArcConsistency (commitState stC cell tv)).1
              false).2.queue = []
            rw [hrestore]
            exact hq1
          · intro a v hv
            have hv2 : (commitState stC cell tv).val a = some v := by
              have : (recSolve fuel (fixArcConsistency (commitState stC cell tv)).1
                  false).2.val a = some v := hv
              rw [hrestore, fixArcConsistency_val] at this
              exact this
            have hincl : (unfixArcConsistency
                (recSolve fuel (fixArcConsistency (commitState stC cell tv)).1 false).2
                (fixArcConsistency (commitState stC cell tv)).2).dom a
                = (commitState stC cell tv).dom a := by
              show (recSolve fuel (fixArcConsistency (commitState stC cell tv)).1
                  false).2.dom a ∪ (fixArcConsistency (commitState stC cell tv)).2 a = _
              rw [hrestore]
              exact fixArcConsistency_dom_union _ a
            rw [hincl]
            exact ValSub_commit stC cell tv hvsC a v hv2
          · intro a ha
            have hincl : (unfixArcConsistency
                (recSolve fuel (fixArcConsistency (commitState stC cell tv)).1 false).2
                (fixArcConsistency (commitState stC cell tv)).2).dom a
                = (commitState stC cell tv).dom a := by
              show (recSolve fuel (fixArcConsistency (commitState stC cell tv)).1
                  false).2.dom a ∪ (fixArcConsistency (commitState stC cell tv)).2 a = _
              rw [hrestore]
              exact fixArcConsistency_dom_union _ a
            rw [hincl]
            show Function.update stC.dom cell {tv} a = st0.dom a
            rw [Function.update_noteq ha]
            exact hdomC a ha
          · intro a ha
            show (recSolve fuel (fixArcConsistency (commitState stC cell tv)).1
                false).2.val a = st0.val a
            rw [hrestore, fixArcConsistency_val]
            show Function.update stC.val cell (some tv) a = st0.val a
            rw [Function.update_noteq ha]
            exact hvalC a ha
      | pyGrid g0 =>
          rw [hr] at h
          have h2 : (PyRes.pyGrid g0,
              (recSolve fuel (fixArcConsistency (commitState stC cell tv)).1 false).2)
              = (PyRes.pyGrid g, st') := h
          have hg : g0 = g := PyRes.pyGrid.inj (congrArg Prod.fst h2)
          have hst : (recSolve fuel (fixArcConsistency (commitState stC cell tv)).1
              false).2 = st' := congrArg Prod.snd h2
          have hcount2 : (unsolvedCells
              (fixArcConsistency (commitState stC cell tv)).1).length < fuel := by
            have := unsolvedCells_commit_length st0 cell tv hcell _ hval1
            omega
          have hfull : recSolve fuel (fixArcConsistency (commitState stC cell tv)).1 false
              = (PyRes.pyGrid g0, (recSolve fuel
                  (fixArcConsistency (commitState stC cell tv)).1 false).2) := by
            rw [← hr]
          obtain ⟨hga, hb1, hb2, hb3⟩ := ihO _ hq1 hvs1 hVC1 hPD1 hVR1 hDS1 hcount2 g0 _ hfull
          rw [← hg, ← hst]
          exact ⟨hga, hb1, hb2, hb3⟩
      | pyList xs =>
          exact absurd hr ((recSolve_single_spec fuel _ hq1 hvs1).2.2.1 xs)

/-- Single-mode `_recSolve` soundness: under the search invariants any
returned grid is the final state, fully committed with peer-distinct
in-range values. -/
theorem recSolve_single_sound : ∀ (fuel : Nat) (st : GState b),
    st.queue = [] → ValSub st → ValuesPropagated st → PairwiseDistinct st →
    ValuesInRange st → DomsInRange st →
    (unsolvedCells st).length < fuel →
    ∀ g st', recSolve fuel st false = (PyRes.pyGrid g, st') →
      g = st' ∧ AllValued st' ∧ PairwiseDistinct st' ∧ ValuesInRange st' := by
  intro fuel
  induction fuel with
  | zero =>
      intro st _ _ _ _ _ _ hcount
      exact absurd hcount (Nat.not_lt_zero _)
  | succ fuel ih =>
      intro st hq hvs hVC hPD hVR hDS hcount g st' h
      cases hu : unsolvedCells st with
      | nil =>
          have hred : recSolve (fuel + 1) st false = (PyRes.pyGrid st, st) := by
            simp only [recSolve, hu]
          rw [hred] at h
          have hg : st = g := PyRes.pyGrid.inj (congrArg Prod.fst h)
          have hst : st = st' := congrArg Prod.snd h
          have hall : AllValued st := by
            intro a hnone
            have : a ∈ unsolvedCells st := mem_unsolvedCells.mpr hnone
            rw [hu] at this
            exact absurd this (List.not_mem_nil a)
          rw [← hg, ← hst]
          exact ⟨rfl, hall, hPD, hVR⟩
      | cons u us =>
          by_cases hc : (st.dom (mostConstrained st u us)).card = 0
          · have hred : recSolve (fuel + 1) st false = (PyRes.pyNone, st) := by
              simp only [recSolve, hu]
              rw [if_pos hc]
            rw [hred] at h
            exact PyRes.noConfusion (congrArg Prod.fst h)
          · rw [recSolve_step fuel st false u us hu hq hc] at h
            have hcellmem : mostConstrained st u us ∈ unsolvedCells st := by
              rw [hu]; exact mostConstrained_mem st us u
            have hcellnone : st.val (mostConstrained st u us) = none :=
              mem_unsolvedCells.mp hcellmem
            exact tryVals_single_sound fuel st (mostConstrained st u us) hq hvs hVC hPD
              hVR hDS hcellnone (by omega) ih
              (ascVals (st.dom (mostConstrained st u us))) st
              (fun tv htv => mem_ascVals.mp htv) hq hvs
              (fun a _ => rfl) (fun a _ => rfl) g st' h

/-- C1 counterexample: the all-given all-zeros base-4 grid.  `solve`
returns it as a solution (single mode returns a grid, not `None` or a
list), yet row 0 of the returned grid holds the value `0` in all four
cells — not exactly once. -/
theorem C1_counterexample :
    isPyList (solve stZ false).1 = false ∧ isPyNone (solve stZ false).1 = false ∧
    (gridOf (solve stZ false).1 stZ).val ((0 : Fin 4), (0 : Fin 4)) = some 0 ∧
    (gridOf (solve stZ false).1 stZ).val ((0 : Fin 4), (1 : Fin 4)) = some 0 ∧
    ((rowAddrs 4 0).filter
      (fun a => (gridOf (solve stZ false).1 stZ).val a = some 0)).card = 4 := by decide

/-- C1 (amended): for every grid whose initial state is well formed —
domains inside `[0, base)`, every committed value still pending in the
dirty queue with a matching singleton domain (as built by insertion of
given cells), and no two peer cells holding equal values — every grid
returned by `solve` in single mode has every row, column and block
containing each value in `[0, base)` exactly once. -/
theorem C1_solve_sound (k b : Nat) (hb : b = k * k) (st0 : GState b)
    (hDS : DomsInRange st0)
    (hgiven : ∀ a v, st0.val a = some v → a ∈ st0.queue ∧ st0.dom a = {v})
    (hPD : PairwiseDistinct st0) :
    ∀ g st', solve st0 false = (PyRes.pyGrid g, st') → g = st' ∧ GridValid b st' := by
  intro g st' h
  unfold solve at h
  have hq1 : (fixArcConsistency st0).1.queue = [] := fixArcConsistency_queue_empty st0
  have hvs0 : ValSub st0 := by
    intro a v hv
    rw [(hgiven a v hv).2]
  have hvs1 : ValSub (fixArcConsistency st0).1 := ValSub_fixArc st0 hvs0
  have hVC1 : ValuesPropagated (fixArcConsistency st0).1 := by
    intro a v hv c hpeer
    rw [fixArcConsistency_val] at hv
    obtain ⟨hmem, hdom⟩ := hgiven a v hv
    exact fixGo_kill (mu st0) st0 (fun _ => ∅) a v hmem
      (hdom ▸ Finset.Subset.refl _) (fixArcConsistency_queue_empty st0) c hpeer
  have hPD1 : PairwiseDistinct (fixArcConsistency st0).1 := by
    intro a c v w hpeer hva hvc
    rw [fixArcConsistency_val] at hva hvc
    exact hPD a c v w hpeer hva hvc
  have hVR1 : ValuesInRange (fixArcConsistency st0).1 := by
    intro a v hv
    rw [fixArcConsistency_val] at hv
    have hdom := (hgiven a v hv).2
    have hvm : v ∈ st0.dom a := by
      rw [hdom]; exact Finset.mem_singleton_self v
    exact Finset.mem_range.mp (hDS a hvm)
  have hDS1 : DomsInRange (fixArcConsistency st0).1 :=
    fun a => (fixArcConsistency_dom_subset st0 a).trans (hDS a)
  have hcount : (unsolvedCells (fixArcConsistency st0).1).length < b * b + 1 := by
    have h1 : (unsolvedCells (fixArcConsistency st0).1).length ≤ (allAddrs b).length :=
      List.length_filter_le _ _
    have h2 : (allAddrs b).length = b * b := by
      show ((List.finRange b) ×ˢ (List.finRange b)).length = b * b
      rw [List.length_product]
      simp
    omega
  obtain ⟨hg, hall, hPD', hVR'⟩ :=
    recSolve_single_sound (b * b + 1) _ hq1 hvs1 hVC1 hPD1 hVR1 hDS1 hcount g st' h
  exact ⟨hg, valid_of_filled k b hb st' hall hPD' hVR'⟩

theorem C1_witness :
    (DomsInRange stE ∧ PairwiseDistinct stE ∧
      (∀ a v, stE.val a = some v → a ∈ stE.queue ∧ stE.dom a = {v})) ∧
    (∀ g st', solve stE false = (PyRes.pyGrid g, st') → g = st' ∧ GridValid 4 st') :=
  ⟨⟨by decide, fun a c v w _ hva => Option.noConfusion hva,
    fun a v hv => Option.noConfusion hv⟩,
   C1_solve_sound 2 4 rfl stE (by decide) (fun a v hv => Option.noConfusion hv)
     (fun a c v w _ hva => Option.noConfusion hva)⟩

end Stevoku
